import Mathlib

/-!
Verification of the workflow-core graph engine: topological sorting with
cycle detection, per-node input gathering, the sequential execution engine,
and the validation/scoring utilities.  All definitions below are shallow
embeddings of the corresponding TypeScript functions.
-/

namespace WorkflowCore

/-- Per-node configuration read by the validator (`data.model`, `data.url`,
`data.content`, `data.condition`); an absent field is `none`, an empty string
is falsy like in JS. -/
structure NodeData where
  model : Option String := none
  url : Option String := none
  content : Option String := none
  condition : Option String := none
deriving DecidableEq, Repr

/-- 2-D layout position of a node; only `x` matters to the core. -/
structure Position where
  x : Int := 0
  y : Int := 0
deriving DecidableEq, Repr

/-- A workflow node. -/
structure Node where
  id : String
  type : String
  position : Position := {}
  data : NodeData := {}
deriving DecidableEq, Repr

/-- A directed data-dependency edge between node ids. -/
structure Edge where
  id : String
  source : String
  target : String
deriving DecidableEq, Repr

/-- JS truthiness of an optional string: `undefined` and `""` are falsy. -/
def strTruthy (o : Option String) : Bool :=
  !(o.getD "" == "")

/-- Result record of `topologicalSort`. -/
structure TopologicalSortResult where
  sorted : List Node
  hasCycle : Bool
  cycleNodes : Option (List String)
deriving DecidableEq, Repr

/-- Mutable state of the DFS in `topologicalSort`: the `visited` and
`recursionStack` sets, the output list (built by `unshift`), the cycle flag
and the raw pushed `cycleNodes`. -/
structure SortState where
  visited : List String
  recStack : List String
  sorted : List Node
  hasCycle : Bool
  cycleNodes : List String
deriving DecidableEq, Repr

/-- The adjacency list of `topologicalSort`: every node id is initialised to
`[]` and each edge appends its target to its source's entry, so looking a key
up (with default `[]`) yields exactly the targets of the edges leaving it, in
edge order. -/
def adjOf (edges : List Edge) (x : String) : List String :=
  (edges.filter (fun e => e.source == x)).map Edge.target

/-- Runs an `Option`-valued state transformer over a list, stopping at `none`
(models a `forEach` of calls that may exhaust fuel). -/
def runList (f : String → SortState → Option SortState) :
    List String → SortState → Option SortState
  | [], s => some s
  | x :: xs, s =>
    match f x s with
    | none => none
    | some s' => runList f xs s'

/-- The recursive `dfs` of `topologicalSort`, with a fuel bound on recursion
depth (`none` = fuel exhausted; a sufficient bound is proved below).
Branches in source order: recursion-stack hit (record cycle), already
visited, otherwise mark visited/on-stack, recurse into neighbours, pop the
stack and `unshift` the node onto `sorted`. -/
def dfsF (nodes : List Node) (adj : String → List String) :
    Nat → String → SortState → Option SortState
  | 0, _, _ => none
  | fuel + 1, nodeId, s =>
    if s.recStack.contains nodeId then
      some { s with hasCycle := true, cycleNodes := s.cycleNodes ++ [nodeId] }
    else if s.visited.contains nodeId then
      some s
    else
      let s1 : SortState :=
        { s with visited := nodeId :: s.visited, recStack := nodeId :: s.recStack }
      match runList (fun b t => dfsF nodes adj fuel b t) (adj nodeId) s1 with
      | none => none
      | some s2 =>
        let s3 : SortState := { s2 with recStack := s2.recStack.filter (fun x => x != nodeId) }
        some (match nodes.find? (fun n => n.id == nodeId) with
          | some node => { s3 with sorted := node :: s3.sorted }
          | none => s3)

/-- The trailing loop of `topologicalSort`: visit every node not yet visited. -/
def runRem (f : String → SortState → Option SortState) :
    List Node → SortState → Option SortState
  | [], s => some s
  | n :: ns, s =>
    match (if s.visited.contains n.id then some s else f n.id s) with
    | none => none
    | some s' => runRem f ns s'

/-- First-occurrence deduplication, the semantics of
`Array.from(new Set(xs))`. -/
def firstDedup (xs : List String) : List String :=
  xs.foldl (fun acc x => if acc.contains x then acc else acc ++ [x]) []

/-- Fuel that is proved sufficient for the DFS: one more than the number of
ids it can ever visit (node ids and edge targets). -/
def sortFuel (nodes : List Node) (edges : List Edge) : Nat :=
  (nodes.map Node.id ++ edges.map Edge.target).length + 1

/-- The whole traversal of `topologicalSort`: DFS from entry nodes (nodes
that are no edge's target) in array order, or from the first node if there is
none, then from every remaining unvisited node. -/
def sortRun (fuel : Nat) (nodes : List Node) (edges : List Edge) : Option SortState :=
  let adj := adjOf edges
  let nodesWithIncoming := edges.map Edge.target
  let entryNodes := nodes.filter (fun n => !(nodesWithIncoming.contains n.id))
  let init : SortState := ⟨[], [], [], false, []⟩
  let afterEntry : Option SortState :=
    if entryNodes.isEmpty && !nodes.isEmpty then
      match nodes with
      | [] => some init
      | n :: _ => dfsF nodes adj fuel n.id init
    else
      runList (fun b t => dfsF nodes adj fuel b t) (entryNodes.map Node.id) init
  match afterEntry with
  | none => none
  | some s => runRem (fun b t => dfsF nodes adj fuel b t) nodes s

/-- `topologicalSort` with explicit fuel. -/
def topologicalSortF (fuel : Nat) (nodes : List Node) (edges : List Edge) :
    Option TopologicalSortResult :=
  (sortRun fuel nodes edges).map fun s =>
    { sorted := s.sorted
      hasCycle := s.hasCycle
      cycleNodes := if s.hasCycle then some (firstDedup s.cycleNodes) else none }

/-- `topologicalSort(nodes, edges)` (total: the canonical fuel is proved
sufficient below). -/
def topologicalSort (nodes : List Node) (edges : List Edge) : TopologicalSortResult :=
  (topologicalSortF (sortFuel nodes edges) nodes edges).getD ⟨[], false, none⟩

/-! ### Input gathering (`getNodeInputs`) -/

/-- Lookup in a JS `Map` built from an association list: the last binding of a
key wins (later `set`s overwrite earlier ones). -/
def jsMapGet (pairs : List (String × Int)) (k : String) : Option Int :=
  pairs.foldl (fun acc p => if p.1 == k then some p.2 else acc) none

/-- Stable insertion into a list ascending in the key (an element is placed
after every earlier element whose key is `≤` its own), modelling the stable
JS `Array.prototype.sort` with comparator `posA - posB`. -/
def insertByPos (key : Edge → Int) (e : Edge) : List Edge → List Edge
  | [] => [e]
  | f :: fs => if key f ≤ key e then f :: insertByPos key e fs else e :: f :: fs

/-- Stable sort of the incoming edges by the `x` position of their source. -/
def sortEdgesByPos (key : Edge → Int) (l : List Edge) : List Edge :=
  l.foldl (fun acc e => insertByPos key e acc) []

/-- `getNodeInputs(nodeId, edges, results, nodes?)`: the incoming edges of
`nodeId`, sorted by source-node `x` when the node list is supplied (missing
sources default to position `0`), keyed `input1, input2, …` and mapped to the
recorded result of each source (`none` = `undefined`). -/
def getNodeInputs {V : Type} (nodeId : String) (edges : List Edge)
    (results : List (String × V)) (nodes : Option (List Node)) :
    List (String × Option V) :=
  let incomingEdges := edges.filter (fun e => e.target == nodeId)
  let sortedEdges :=
    match nodes with
    | some ns =>
      let nodePositions := ns.map (fun n => (n.id, n.position.x))
      sortEdgesByPos (fun e => (jsMapGet nodePositions e.source).getD 0) incomingEdges
    | none => incomingEdges
  (List.range sortedEdges.length).zip sortedEdges |>.map
    (fun p => ("input" ++ toString (p.1 + 1), resultsGet results p.2.source))
where
  /-- `results.get(source)` on the JS `Map` of recorded outputs. -/
  resultsGet (results : List (String × V)) (k : String) : Option V :=
    results.foldl (fun acc p => if p.1 == k then some p.2 else acc) none

/-! ### Execution engine (`executeWorkflow`) -/

/-- Streaming lifecycle events (`ExecutionUpdate`). -/
inductive ExecUpdate (V : Type) where
  | node_start (nodeId : String)
  | node_complete (nodeId : String) (output : V)
  | node_error (nodeId : String) (error : String)
  | complete
  | error (message : String)
deriving DecidableEq, Repr

/-- `ExecutionResult`. -/
structure ExecResult (V : Type) where
  success : Bool
  results : List (String × V)
  error : Option String
deriving DecidableEq, Repr

/-- `Map.set` semantics: overwrite in place if the key exists, else append. -/
def mapSet {V : Type} (l : List (String × V)) (k : String) (v : V) : List (String × V) :=
  if l.any (fun p => p.1 == k) then
    l.map (fun p => if p.1 == k then (k, v) else p)
  else l ++ [(k, v)]

/-- The per-node loop of `executeWorkflow`, iterating the sorted order:
check the abort flag (indexed by how many nodes were dispatched so far),
emit `node_start`, gather inputs, run the node's behaviour, record and emit
`node_complete`, or emit `node_error` and fail the run.  `execNode`
abstracts the overridable `executeNode` dispatch, `abortAt i` tells whether
the cancellation flag is set when checked before the `i`-th dispatch
(0-indexed). -/
def execLoop {V : Type} (execNode : Node → List (String × Option V) → Except String V)
    (abortAt : Nat → Bool) (allNodes : List Node) (edges : List Edge) :
    List Node → Nat → List (String × V) →
    List (ExecUpdate V) × Except String (List (String × V))
  | [], _, results => ([], Except.ok results)
  | node :: rest, idx, results =>
    if abortAt idx then ([], Except.error "Execution aborted")
    else
      match execNode node (getNodeInputs node.id edges results (some allNodes)) with
      | Except.ok out =>
        (ExecUpdate.node_start node.id :: ExecUpdate.node_complete node.id out ::
          (execLoop execNode abortAt allNodes edges rest (idx + 1)
            (mapSet results node.id out)).1,
         (execLoop execNode abortAt allNodes edges rest (idx + 1)
            (mapSet results node.id out)).2)
      | Except.error msg =>
        ([ExecUpdate.node_start node.id, ExecUpdate.node_error node.id msg],
          Except.error ("Node " ++ node.id ++ " failed: " ++ msg))

/-- The body of `executeWorkflow` after the sort result has been
destructured: fail on cycles, otherwise run the loop, emit `complete` on an
ok exit; the top-level catch converts every failure exit into
`{success:false, results:{}, error}` after emitting a terminal `error`
event. -/
def executeWorkflowWith {V : Type}
    (execNode : Node → List (String × Option V) → Except String V)
    (abortAt : Nat → Bool) (nodes : List Node) (edges : List Edge)
    (r : TopologicalSortResult) : List (ExecUpdate V) × ExecResult V :=
  if r.hasCycle then
    let msg := "Workflow contains cycles: " ++ String.intercalate ", " (r.cycleNodes.getD [])
    ([ExecUpdate.error msg], ⟨false, [], some msg⟩)
  else
    match execLoop execNode abortAt nodes edges r.sorted 0 [] with
    | (us, Except.ok results) => (us ++ [ExecUpdate.complete], ⟨true, results, none⟩)
    | (us, Except.error msg) => (us ++ [ExecUpdate.error msg], ⟨false, [], some msg⟩)

/-- `executeWorkflow(nodes, edges, context, onUpdate)`.  The pair returned is
(events delivered to `onUpdate` in order, the `ExecutionResult`). -/
def executeWorkflow {V : Type}
    (execNode : Node → List (String × Option V) → Except String V)
    (abortAt : Nat → Bool) (nodes : List Node) (edges : List Edge) :
    List (ExecUpdate V) × ExecResult V :=
  executeWorkflowWith execNode abortAt nodes edges (topologicalSort nodes edges)

/-! ### Validation (`node-utils.ts`) -/

/-- Issue severities. -/
inductive Severity where
  | error
  | warning
  | info
deriving DecidableEq, Repr

/-- A validation issue (canonical single-node shape). -/
structure ValidationIssue where
  type : Severity
  nodeId : Option String := none
  message : String
  field : Option String := none
  suggestion : Option String := none
deriving DecidableEq, Repr

/-- The `BLOCKED_HOSTS` list. -/
def BLOCKED_HOSTS : List String :=
  ["localhost", "127.0.0.1", "0.0.0.0", "169.254.169.254",
   "metadata.google.internal", "10.", "172.16.", "192.168."]

/-- What `isUrlSafe` reads off a parsed URL. -/
structure URLParts where
  protocol : String
  hostname : String
deriving DecidableEq, Repr

/-- Prefix test on character lists (`String.prototype.startsWith`). -/
def charsStartWith : List Char → List Char → Bool
  | _, [] => true
  | [], _ :: _ => false
  | c :: cs, d :: ds => c == d && charsStartWith cs ds

/-- `s.startsWith(p)` (kernel-reducible model of the library primitive). -/
def strStartsWith (s p : String) : Bool :=
  charsStartWith s.data p.data

/-- ASCII lower-casing of one character (`String.prototype.toLowerCase` on
the hostname alphabet). -/
def asciiLower (c : Char) : Char :=
  if c == 'A' then 'a' else if c == 'B' then 'b' else if c == 'C' then 'c'
  else if c == 'D' then 'd' else if c == 'E' then 'e' else if c == 'F' then 'f'
  else if c == 'G' then 'g' else if c == 'H' then 'h' else if c == 'I' then 'i'
  else if c == 'J' then 'j' else if c == 'K' then 'k' else if c == 'L' then 'l'
  else if c == 'M' then 'm' else if c == 'N' then 'n' else if c == 'O' then 'o'
  else if c == 'P' then 'p' else if c == 'Q' then 'q' else if c == 'R' then 'r'
  else if c == 'S' then 's' else if c == 'T' then 't' else if c == 'U' then 'u'
  else if c == 'V' then 'v' else if c == 'W' then 'w' else if c == 'X' then 'x'
  else if c == 'Y' then 'y' else if c == 'Z' then 'z' else c

/-- `s.toLowerCase()`. -/
def strToLower (s : String) : String :=
  String.mk (s.data.map asciiLower)

/-- `isUrlSafe` over an abstract URL parser (the `new URL` platform
primitive): unparsable is unsafe; a lower-cased hostname equal to or starting
with a blocked entry is unsafe; a protocol other than `http:`/`https:` is
unsafe; otherwise safe. -/
def isUrlSafeWith (parse : String → Option URLParts) (url : String) : Bool :=
  match parse url with
  | none => false
  | some parsed =>
    let hostname := strToLower parsed.hostname
    if BLOCKED_HOSTS.any (fun blocked =>
        hostname == blocked || strStartsWith hostname blocked) then false
    else if !(["http:", "https:"].contains parsed.protocol) then false
    else true

/-- Splits a character list at the first occurrence of `://`. -/
def splitSchemeSep : List Char → Option (List Char × List Char)
  | [] => none
  | ':' :: '/' :: '/' :: rest => some ([], rest)
  | c :: rest =>
    match splitSchemeSep rest with
    | none => none
    | some p => some (c :: p.1, p.2)

/-- The authority's host part: characters up to the first `:`, `/`, `?` or
`#`. -/
def takeHostChars : List Char → List Char
  | [] => []
  | c :: rest =>
    if c == ':' || c == '/' || c == '?' || c == '#' then []
    else c :: takeHostChars rest

/-- Modelled from the spec: the platform `new URL` constructor used by
`isUrlSafe` (not part of this repository).  Parses the
`scheme://host[:port][/path]` fragment of the URL grammar that the spec's
scenarios exercise: the scheme is the non-empty prefix before `://`, the
hostname is the authority up to the first `:`, `/`, `?` or `#`; anything
without a separator or with an empty scheme or host fails to parse. -/
def simpleParseURL (url : String) : Option URLParts :=
  match splitSchemeSep url.data with
  | none => none
  | some (schemeChars, restChars) =>
    if schemeChars.isEmpty then none
    else
      let hostname := takeHostChars restChars
      if hostname.isEmpty then none
      else some ⟨String.mk (schemeChars ++ [':']), String.mk hostname⟩

/-- `isUrlSafe(url)` with the concrete parser model. -/
def isUrlSafe (url : String) : Bool :=
  isUrlSafeWith simpleParseURL url

/-- State of the second, independent cycle finder `detectCycles`. -/
structure DetectState where
  cycles : List (List String)
  visited : List String
  recStack : List String
  currentPath : List String
deriving DecidableEq, Repr

/-- Index of the first occurrence, `Array.prototype.indexOf`. -/
def idxIn (a : String) : List String → Nat
  | [] => 0
  | x :: xs => if x == a then 0 else idxIn a xs + 1

/-- The recursive `dfs` of `detectCycles` (fuel-bounded): push onto the
visited set, recursion stack and current path; walk neighbours in order —
recurse into unvisited ones (propagating `true` upward, which abandons the
remaining neighbours), record `currentPath.slice(indexOf(nb)) ++ [nb]` as a
cycle on meeting a recursion-stack member; pop on a `false` exit. -/
def detectDfsF (adj : String → List String) :
    Nat → String → DetectState → Option (DetectState × Bool)
  | 0, _, _ => none
  | fuel + 1, nodeId, st =>
    let st1 : DetectState :=
      { st with visited := nodeId :: st.visited
                recStack := nodeId :: st.recStack
                currentPath := st.currentPath ++ [nodeId] }
    match (adj nodeId).foldlM (fun (acc : DetectState × Bool) nb =>
        if acc.2 then some acc
        else if !(acc.1.visited.contains nb) then
          detectDfsF adj fuel nb acc.1
        else if acc.1.recStack.contains nb then
          let cycle := acc.1.currentPath.drop (idxIn nb acc.1.currentPath)
          some ({ acc.1 with cycles := acc.1.cycles ++ [cycle ++ [nb]] }, true)
        else some acc) (st1, false) with
    | none => none
    | some (st2, true) => some (st2, true)
    | some (st2, false) =>
      some ({ st2 with recStack := st2.recStack.filter (fun x => x != nodeId)
                       currentPath := st2.currentPath.dropLast }, false)

/-- `detectCycles(nodes, edges)` (fuel-bounded): run the finder from every
not-yet-visited node in array order, discarding the boolean. -/
def detectCyclesF (fuel : Nat) (nodes : List Node) (edges : List Edge) :
    Option (List (List String)) :=
  let adj := adjOf edges
  let st0 : DetectState := ⟨[], [], [], []⟩
  (nodes.foldlM (fun (st : DetectState) n =>
    if st.visited.contains n.id then some st
    else (detectDfsF adj fuel n.id st).map Prod.fst) st0).map DetectState.cycles

/-- The memoised `calculateChainLength` (fuel-bounded — the source has no
cycle guard and diverges on cyclic graphs): `1` with no incoming edges, else
`1 + max` over the incoming edges' sources, threading the memo map. -/
def chainF (edges : List Edge) :
    Nat → String → List (String × Nat) → Option (Nat × List (String × Nat))
  | 0, _, _ => none
  | fuel + 1, nodeId, memo =>
    match memo.lookup nodeId with
    | some v => some (v, memo)
    | none =>
      let incomingEdges := edges.filter (fun e => e.target == nodeId)
      if incomingEdges.isEmpty then some (1, (nodeId, 1) :: memo)
      else
        match (incomingEdges.map Edge.source).foldlM
            (fun (acc : List Nat × List (String × Nat)) src =>
              (chainF edges fuel src acc.2).map (fun r => (acc.1 ++ [r.1], r.2)))
            ([], memo) with
        | none => none
        | some (vals, memo') =>
          let length := vals.foldl max 0 + 1
          some (length, (nodeId, length) :: memo')

/-- All chain lengths, computed per node in array order with a shared memo. -/
def chainLengthsF (fuel : Nat) (nodes : List Node) (edges : List Edge) :
    Option (List (String × Nat)) :=
  nodes.foldlM (fun memo n => (chainF edges fuel n.id memo).map Prod.snd) []

/-- `validateWorkflow(nodes, edges)` (fuel-bounded through `detectCycles` and
`calculateChainLength`): cycle errors, orphan warnings, missing-start
warning, unreachable-end warnings, per-type configuration issues, unused
outputs, long chains — in source order, no short-circuiting. -/
def validateWorkflowF (fuel : Nat) (nodes : List Node) (edges : List Edge) :
    Option (List ValidationIssue) :=
  match detectCyclesF fuel nodes edges with
  | none => none
  | some cycles =>
    let cycleIssues := cycles.map (fun cycle =>
      { type := Severity.error
        nodeId := some (cycle.headD "")
        message := "Cycle detected - Infinite loop found involving nodes: " ++
          String.intercalate " → " cycle
        suggestion := some "Remove connections that create circular dependencies"
        : ValidationIssue })
    let connectedNodes := edges.flatMap (fun e => [e.source, e.target])
    let orphanIssues := (nodes.filter (fun n =>
        !(connectedNodes.contains n.id) && n.type != "start" && decide (nodes.length > 1))).map
      (fun n => { type := Severity.warning, nodeId := some n.id
                  message := "Orphan node - Not connected to workflow and will not execute"
                  suggestion := some "Connect this node to the workflow or remove it"
                  : ValidationIssue })
    let startIssues := if !(nodes.any (fun n => n.type == "start")) && nodes.length > 0 then
        [{ type := Severity.warning
           message := "No Start node - Workflow needs an entry point"
           suggestion := some "Add a Start node to define where execution begins"
           : ValidationIssue }]
      else []
    let endIssues := (nodes.filter (fun n => n.type == "end")).filterMap (fun endNode =>
      if !(edges.any (fun e => e.target == endNode.id)) && decide (nodes.length > 1) then
        some { type := Severity.warning, nodeId := some endNode.id
               message := "Unreachable End node - Cannot be reached from any other node"
               suggestion := some "Connect this node to the workflow or remove it"
               : ValidationIssue }
      else none)
    let configIssues := nodes.flatMap (fun n =>
      if n.type == "textModel" then
        if !(strTruthy n.data.model) then
          [{ type := Severity.error, nodeId := some n.id, field := some "model"
             message := "Text Model node requires a model to be selected"
             suggestion := some "Select an AI model from the configuration panel"
             : ValidationIssue }]
        else []
      else if n.type == "httpRequest" then
        if !(strTruthy n.data.url) then
          [{ type := Severity.error, nodeId := some n.id, field := some "url"
             message := "HTTP Request node requires a URL"
             suggestion := some "Enter a valid HTTP or HTTPS URL"
             : ValidationIssue }]
        else if !(isUrlSafe (n.data.url.getD "")) then
          [{ type := Severity.error, nodeId := some n.id, field := some "url"
             message := "Unsafe URL - Points to private network or uses unsupported protocol"
             suggestion := some "Only public HTTP/HTTPS endpoints are allowed. Avoid localhost, private IPs, and metadata endpoints"
             : ValidationIssue }]
        else []
      else if n.type == "prompt" then
        if !(strTruthy n.data.content) then
          [{ type := Severity.warning, nodeId := some n.id, field := some "content"
             message := "Prompt node has no content"
             suggestion := some "Add prompt text or template"
             : ValidationIssue }]
        else []
      else if n.type == "conditional" then
        if !(strTruthy n.data.condition) then
          [{ type := Severity.error, nodeId := some n.id, field := some "condition"
             message := "Conditional node requires a condition expression"
             suggestion := some "Add a JavaScript expression that returns true or false"
             : ValidationIssue }]
        else []
      else [])
    let targetNodes := edges.map Edge.target
    let unusedIssues := (nodes.filter (fun n =>
        !(targetNodes.contains n.id) && n.type != "end" && decide (nodes.length > 1))).map
      (fun n => { type := Severity.info, nodeId := some n.id
                  message := "Node output not connected - Result will not be used"
                  suggestion := some "Connect to another node or add an End node"
                  : ValidationIssue })
    match chainLengthsF fuel nodes edges with
    | none => none
    | some chainLengths =>
      let longChainIssues := (nodes.filter (fun n =>
          decide (((chainLengths.lookup n.id).getD 0) > 10))).map
        (fun n => { type := Severity.info, nodeId := some n.id
                    message := "Long execution chain detected (>10 nodes deep)"
                    suggestion := some "Consider breaking into smaller workflows or adding checkpoints for better debugging"
                    : ValidationIssue })
      some (cycleIssues ++ orphanIssues ++ startIssues ++ endIssues ++
        configIssues ++ unusedIssues ++ longChainIssues)

/-- `validateWorkflow` at the canonical fuel (sufficient whenever the
chain-length recursion terminates at all). -/
def validateWorkflow (nodes : List Node) (edges : List Edge) :
    Option (List ValidationIssue) :=
  validateWorkflowF (nodes.length + edges.length + 1) nodes edges

/-- `calculateValidationScore(issues)`. -/
def calculateValidationScore (issues : List ValidationIssue) : Int :=
  let errorCount := (issues.filter (fun i => i.type == Severity.error)).length
  let warningCount := (issues.filter (fun i => i.type == Severity.warning)).length
  if errorCount > 0 then max 0 (40 - (errorCount : Int) * 10)
  else if warningCount > 0 then max 60 (90 - (warningCount : Int) * 10)
  else 100

/-! ### Specification-level notions used by the claims -/

/-- The directed edge relation of a graph. -/
def EdgeRel (edges : List Edge) (a b : String) : Prop :=
  ∃ e ∈ edges, e.source = a ∧ e.target = b

/-- The graph has no directed cycle (over all ids, dangling ones included). -/
def Acyclic (edges : List Edge) : Prop :=
  ∀ v, ¬ Relation.TransGen (EdgeRel edges) v v

/-- `v` is reachable (along edges) from some node of the node list — the ids
the traversal of `topologicalSort` can ever reach. -/
def ReachableFromNodes (nodes : List Node) (edges : List Edge) (v : String) : Prop :=
  ∃ n ∈ nodes.map Node.id, Relation.ReflTransGen (EdgeRel edges) n v

/-- The graph contains a directed cycle reachable via the traversal rule. -/
def HasReachableCycle (nodes : List Node) (edges : List Edge) : Prop :=
  ∃ v, ReachableFromNodes nodes edges v ∧ Relation.TransGen (EdgeRel edges) v v

/-- The event trace of a fully successful run: a `(node_start,
node_complete)` pair per node id, in order. -/
def startCompletePairs {V : Type} : List String → List V → List (ExecUpdate V)
  | i :: is, v :: vs =>
    ExecUpdate.node_start i :: ExecUpdate.node_complete i v :: startCompletePairs is vs
  | _, _ => []

/-- Drops every edge whose source or target id is not the id of a node. -/
def removeUnresolvedEdges (nodes : List Node) (edges : List Edge) : List Edge :=
  edges.filter (fun e =>
    nodes.any (fun n => n.id == e.source) && nodes.any (fun n => n.id == e.target))

/-- Whether an event is a `node_start` for the given id. -/
def isNodeStartFor {V : Type} (i : String) : ExecUpdate V → Bool
  | ExecUpdate.node_start j => j == i
  | _ => false

/-- Whether an event is a terminal `error` event. -/
def isErrorUpdate {V : Type} : ExecUpdate V → Bool
  | ExecUpdate.error _ => true
  | _ => false

/-! ## Lemmas -/

/-- The recursion stack is always a subset of the visited set. -/
def RSV (s : SortState) : Prop :=
  ∀ i ∈ s.recStack, i ∈ s.visited

/-- Whether `i` is the id of some node of the list. -/
def nodeIdMem (nodes : List Node) (i : String) : Bool :=
  nodes.any (fun n => n.id == i)

/-- The output-list invariant: `sorted` holds exactly the visited node ids
that are off the recursion stack, each once, as nodes of the input list. -/
def SINV (nodes : List Node) (s : SortState) : Prop :=
  (∀ i, i ∈ s.sorted.map Node.id ↔
    (i ∈ s.visited ∧ i ∉ s.recStack ∧ nodeIdMem nodes i = true)) ∧
  (s.sorted.map Node.id).Nodup ∧ ∀ n ∈ s.sorted, n ∈ nodes

/-- The ordering invariant: while no back edge has been seen, there is a
duplicate-free finish order `L` of all finished ids (visited and off the
stack) in which every id precedes all its neighbours, and whose node-id part
is exactly the ids of `sorted`. -/
def TINV (nodes : List Node) (adj : String → List String) (s : SortState) : Prop :=
  s.hasCycle = false →
    ∃ L : List String, L.Nodup ∧
      (∀ i, i ∈ L ↔ (i ∈ s.visited ∧ i ∉ s.recStack)) ∧
      (∀ u b, u ∈ L → b ∈ adj u → [u, b].Sublist L) ∧
      s.sorted.map Node.id = L.filter (fun i => nodeIdMem nodes i)

/-- One step along an adjacency function. -/
def StepRel (adj : String → List String) (a b : String) : Prop :=
  b ∈ adj a

/-- Reachability from some node id along the adjacency function. -/
def ReachAdj (nodes : List Node) (adj : String → List String) (v : String) : Prop :=
  ∃ n ∈ nodes.map Node.id, Relation.ReflTransGen (StepRel adj) n v

/-- A reachable cycle in the adjacency function. -/
def CycAdj (nodes : List Node) (adj : String → List String) : Prop :=
  ∃ v, ReachAdj nodes adj v ∧ Relation.TransGen (StepRel adj) v v

/-- Count of universe ids not yet visited: the DFS termination measure. -/
def unvis (uni : List String) (s : SortState) : Nat :=
  (uni.filter (fun i => !(s.visited.contains i))).length

/-- Simulation relation between a traversal state `t` of the cleaned edge
list and a state `s` of the full edge list: all components agree except that
`s` may additionally have visited ids that are not node ids. -/
@[reducible] def CleanRel (nodes : List Node) (t s : SortState) : Prop :=
  t.recStack = s.recStack ∧ t.sorted = s.sorted ∧ t.hasCycle = s.hasCycle ∧
  t.cycleNodes = s.cycleNodes ∧
  (∀ i, nodeIdMem nodes i = true → (i ∈ t.visited ↔ i ∈ s.visited)) ∧
  (∀ i ∈ t.visited, nodeIdMem nodes i = true) ∧
  (∀ i ∈ s.recStack, nodeIdMem nodes i = true)

theorem runList_pres {f : String → SortState → Option SortState}
    {P : SortState → SortState → Prop}
    (hrefl : ∀ s, P s s)
    (htrans : ∀ a b c, P a b → P b c → P a c)
    (hf : ∀ x t t', f x t = some t' → P t t') :
    ∀ l s s', runList f l s = some s' → P s s' := by
  intro l
  induction l with
  | nil => intro s s' h; cases h; exact hrefl s
  | cons x xs ih =>
    intro s s' h
    rw [runList] at h
    cases hx : f x s with
    | none => rw [hx] at h; cases h
    | some t => rw [hx] at h; exact htrans _ _ _ (hf x s t hx) (ih t s' h)

theorem runRem_pres {f : String → SortState → Option SortState}
    {P : SortState → SortState → Prop}
    (hrefl : ∀ s, P s s)
    (htrans : ∀ a b c, P a b → P b c → P a c)
    (hf : ∀ x t t', f x t = some t' → P t t') :
    ∀ l s s', runRem f l s = some s' → P s s' := by
  intro l
  induction l with
  | nil => intro s s' h; cases h; exact hrefl s
  | cons n ns ih =>
    intro s s' h
    rw [runRem] at h
    by_cases hv : s.visited.contains n.id
    · rw [if_pos hv] at h
      exact ih s s' h
    · rw [if_neg hv] at h
      cases hx : f n.id s with
      | none => rw [hx] at h; cases h
      | some t => rw [hx] at h; exact htrans _ _ _ (hf n.id s t hx) (ih t s' h)

theorem runList_lift {f g : String → SortState → Option SortState}
    (hfg : ∀ x t r, f x t = some r → g x t = some r) :
    ∀ l s s', runList f l s = some s' → runList g l s = some s' := by
  intro l
  induction l with
  | nil => intro s s' h; exact h
  | cons x xs ih =>
    intro s s' h
    rw [runList] at h ⊢
    cases hx : f x s with
    | none => rw [hx] at h; cases h
    | some t => rw [hx] at h; rw [hfg x s t hx]; exact ih t s' h

theorem runRem_lift {f g : String → SortState → Option SortState}
    (hfg : ∀ x t r, f x t = some r → g x t = some r) :
    ∀ l s s', runRem f l s = some s' → runRem g l s = some s' := by
  intro l
  induction l with
  | nil => intro s s' h; exact h
  | cons n ns ih =>
    intro s s' h
    rw [runRem] at h ⊢
    by_cases hv : s.visited.contains n.id
    · rw [if_pos hv] at h ⊢; exact ih s s' h
    · rw [if_neg hv] at h ⊢
      cases hx : f n.id s with
      | none => rw [hx] at h; cases h
      | some t => rw [hx] at h; rw [hfg n.id s t hx]; exact ih t s' h

/-- Basic evolution facts about one `dfs` call: the visited set only grows,
the recursion stack is restored, and `cycleNodes` only gains entries, with
`hasCycle` flipped exactly when it does. -/
theorem dfs_basic (nodes : List Node) (adj : String → List String) :
    ∀ fuel x s s', dfsF nodes adj fuel x s = some s' →
      s.visited ⊆ s'.visited ∧ s'.recStack = s.recStack ∧
      ∃ t, s'.cycleNodes = s.cycleNodes ++ t ∧ s'.hasCycle = (s.hasCycle || !t.isEmpty) := by
  intro fuel
  induction fuel with
  | zero => intro x s s' h; simp [dfsF] at h
  | succ fuel ih =>
    intro x s s' h
    rw [dfsF] at h
    by_cases h1 : s.recStack.contains x
    · rw [if_pos h1] at h
      cases h
      exact ⟨fun a ha => ha, rfl, [x], rfl, by simp⟩
    · rw [if_neg h1] at h
      by_cases h2 : s.visited.contains x
      · rw [if_pos h2] at h
        cases h
        exact ⟨fun a ha => ha, rfl, [], by simp, by simp⟩
      · rw [if_neg h2] at h
        simp only at h
        cases hrl : runList (fun b t => dfsF nodes adj fuel b t) (adj x)
            { s with visited := x :: s.visited, recStack := x :: s.recStack } with
        | none => rw [hrl] at h; cases h
        | some s2 =>
          rw [hrl] at h
          have hstep := runList_pres
            (P := fun a b => a.visited ⊆ b.visited ∧ b.recStack = a.recStack ∧
              ∃ t, b.cycleNodes = a.cycleNodes ++ t ∧ b.hasCycle = (a.hasCycle || !t.isEmpty))
            (fun s => ⟨fun a ha => ha, rfl, [], by simp, by simp⟩)
            (fun a b c hab hbc => by
              obtain ⟨v1, r1, t1, c1, y1⟩ := hab
              obtain ⟨v2, r2, t2, c2, y2⟩ := hbc
              refine ⟨fun i hi => v2 (v1 hi), r2.trans r1, t1 ++ t2, ?_, ?_⟩
              · rw [c2, c1, List.append_assoc]
              · rw [y2, y1, Bool.or_assoc]
                congr 1
                cases t1 <;> cases t2 <;> simp)
            (fun x t t' h => ih x t t' h)
            _ _ _ hrl
          obtain ⟨v12, r12, t12, c12, y12⟩ := hstep
          have hrec2 : s2.recStack = x :: s.recStack := r12
          have hfil : s2.recStack.filter (fun y => y != x) = s.recStack := by
            rw [hrec2]
            simp only [List.filter_cons]
            have : (x != x) = false := by simp
            rw [this]
            apply List.filter_eq_self.mpr
            intro a ha
            simp only [bne_iff_ne, ne_eq, decide_eq_true_eq]
            intro hax
            subst hax
            exact h1 (by simpa using ha)
          cases hfind : nodes.find? (fun n => n.id == x) with
          | some node =>
            rw [hfind] at h
            cases h
            refine ⟨fun a ha => v12 (by simp [ha]), hfil, t12, c12, ?_⟩
            · simpa using y12
          | none =>
            rw [hfind] at h
            cases h
            refine ⟨fun a ha => v12 (by simp [ha]), hfil, t12, c12, ?_⟩
            · simpa using y12

theorem dfs_visited_mono (nodes : List Node) (adj : String → List String)
    {fuel : Nat} {x : String} {s s' : SortState}
    (h : dfsF nodes adj fuel x s = some s') : s.visited ⊆ s'.visited :=
  (dfs_basic nodes adj fuel x s s' h).1

theorem dfs_recStack_eq (nodes : List Node) (adj : String → List String)
    {fuel : Nat} {x : String} {s s' : SortState}
    (h : dfsF nodes adj fuel x s = some s') : s'.recStack = s.recStack :=
  (dfs_basic nodes adj fuel x s s' h).2.1

theorem dfs_cyc_mono (nodes : List Node) (adj : String → List String)
    {fuel : Nat} {x : String} {s s' : SortState}
    (h : dfsF nodes adj fuel x s = some s') (hc : s.hasCycle = true) :
    s'.hasCycle = true := by
  obtain ⟨-, -, t, -, hy⟩ := dfs_basic nodes adj fuel x s s' h
  rw [hy, hc]
  simp

theorem dfs_cyc_not (nodes : List Node) (adj : String → List String)
    {fuel : Nat} {x : String} {s s' : SortState}
    (h : dfsF nodes adj fuel x s = some s') (hc : s'.hasCycle = false) :
    s.hasCycle = false := by
  cases hs : s.hasCycle with
  | false => rfl
  | true => rw [dfs_cyc_mono nodes adj h hs] at hc; cases hc

/-- Once a node on the recursion stack is visited again, the cycle flag is
set. -/
theorem dfs_stack_hit (nodes : List Node) (adj : String → List String)
    {fuel : Nat} {x : String} {s s' : SortState}
    (h : dfsF nodes adj fuel x s = some s') (hx : x ∈ s.recStack) :
    s'.hasCycle = true := by
  cases fuel with
  | zero => simp [dfsF] at h
  | succ fuel =>
    rw [dfsF] at h
    rw [if_pos (by simpa using hx)] at h
    cases h
    rfl

/-- `dfs` marks its argument visited, and keeps the stack inside the visited
set. -/
theorem dfs_visits (nodes : List Node) (adj : String → List String) :
    ∀ fuel x s s', dfsF nodes adj fuel x s = some s' → RSV s →
      RSV s' ∧ x ∈ s'.visited := by
  intro fuel
  induction fuel with
  | zero => intro x s s' h; simp [dfsF] at h
  | succ fuel ih =>
    intro x s s' h hrsv
    rw [dfsF] at h
    by_cases h1 : s.recStack.contains x
    · rw [if_pos h1] at h
      cases h
      exact ⟨hrsv, hrsv x (by simpa using h1)⟩
    · rw [if_neg h1] at h
      by_cases h2 : s.visited.contains x
      · rw [if_pos h2] at h
        cases h
        exact ⟨hrsv, by simpa using h2⟩
      · rw [if_neg h2] at h
        simp only at h
        cases hrl : runList (fun b t => dfsF nodes adj fuel b t) (adj x)
            { s with visited := x :: s.visited, recStack := x :: s.recStack } with
        | none => rw [hrl] at h; cases h
        | some s2 =>
          rw [hrl] at h
          have hs1 : RSV { s with visited := x :: s.visited, recStack := x :: s.recStack } := by
            intro i hi
            rcases List.mem_cons.mp hi with hi | hi
            · simp [hi]
            · exact List.mem_cons_of_mem _ (hrsv i hi)
          have hstep := runList_pres
            (P := fun a b => (RSV a → RSV b) ∧ a.visited ⊆ b.visited)
            (fun s => ⟨id, fun a ha => ha⟩)
            (fun a b c hab hbc => ⟨fun h => hbc.1 (hab.1 h), fun i hi => hbc.2 (hab.2 hi)⟩)
            (fun y t t' ht => ⟨fun hq => (ih y t t' ht hq).1, dfs_visited_mono nodes adj ht⟩)
            _ _ _ hrl
          have hrsv2 : RSV s2 := hstep.1 hs1
          have hxin : x ∈ s2.visited := hstep.2 (by simp)
          cases hfind : nodes.find? (fun n => n.id == x) with
          | some node =>
            rw [hfind] at h
            cases h
            refine ⟨?_, hxin⟩
            intro i hi
            exact hrsv2 i (List.mem_of_mem_filter hi)
          | none =>
            rw [hfind] at h
            cases h
            refine ⟨?_, hxin⟩
            intro i hi
            exact hrsv2 i (List.mem_of_mem_filter hi)

/-- After a neighbour sweep, every swept id is visited. -/
theorem runList_visits (nodes : List Node) (adj : String → List String) (fuel : Nat) :
    ∀ l s s', runList (fun b t => dfsF nodes adj fuel b t) l s = some s' → RSV s →
      ∀ b ∈ l, b ∈ s'.visited := by
  intro l
  induction l with
  | nil => intro s s' h hq b hb; cases hb
  | cons y ys ih =>
    intro s s' h hq b hb
    rw [runList] at h
    cases hx : dfsF nodes adj fuel y s with
    | none => rw [hx] at h; cases h
    | some t =>
      rw [hx] at h
      rcases List.mem_cons.mp hb with hb | hb
      · subst hb
        have hbt : b ∈ t.visited := (dfs_visits nodes adj fuel b s t hx hq).2
        have : t.visited ⊆ s'.visited :=
          runList_pres (P := fun a b => a.visited ⊆ b.visited)
            (fun s => fun a ha => ha) (fun a b c hab hbc i hi => hbc (hab hi))
            (fun y t t' ht => dfs_visited_mono nodes adj ht) _ _ _ h
        exact this hbt
      · exact ih t s' h (dfs_visits nodes adj fuel y s t hx hq).1 b hb

/-- If a swept neighbour is on the (constant) recursion stack, the sweep sets
the cycle flag. -/
theorem runList_hit (nodes : List Node) (adj : String → List String) (fuel : Nat) :
    ∀ l s s', runList (fun b t => dfsF nodes adj fuel b t) l s = some s' →
      ∀ b ∈ l, b ∈ s.recStack → s'.hasCycle = true := by
  intro l
  induction l with
  | nil => intro s s' h b hb; cases hb
  | cons y ys ih =>
    intro s s' h b hb hstk
    rw [runList] at h
    cases hx : dfsF nodes adj fuel y s with
    | none => rw [hx] at h; cases h
    | some t =>
      rw [hx] at h
      rcases List.mem_cons.mp hb with hb | hb
      · subst hb
        have : t.hasCycle = true := dfs_stack_hit nodes adj hx hstk
        exact runList_pres (P := fun a b => a.hasCycle = true → b.hasCycle = true)
          (fun s => id) (fun a b c hab hbc h => hbc (hab h))
          (fun y t t' ht => dfs_cyc_mono nodes adj ht) _ _ _ h this
      · exact ih t s' h b hb (by rw [dfs_recStack_eq nodes adj hx]; exact hstk)

theorem runList_recStack (nodes : List Node) (adj : String → List String) (fuel : Nat)
    {l : List String} {s s' : SortState}
    (h : runList (fun b t => dfsF nodes adj fuel b t) l s = some s') :
    s'.recStack = s.recStack :=
  runList_pres (P := fun a b => b.recStack = a.recStack)
    (fun _ => rfl) (fun _ _ _ hab hbc => hbc.trans hab)
    (fun _ _ _ ht => dfs_recStack_eq nodes adj ht) _ _ _ h

theorem runList_visited_mono (nodes : List Node) (adj : String → List String) (fuel : Nat)
    {l : List String} {s s' : SortState}
    (h : runList (fun b t => dfsF nodes adj fuel b t) l s = some s') :
    s.visited ⊆ s'.visited :=
  runList_pres (P := fun a b => a.visited ⊆ b.visited)
    (fun _ => fun a ha => ha) (fun _ _ _ hab hbc i hi => hbc (hab hi))
    (fun _ _ _ ht => dfs_visited_mono nodes adj ht) _ _ _ h

theorem filter_ne_cons_self {x : String} {l : List String} (hx : x ∉ l) :
    (x :: l).filter (fun y => y != x) = l := by
  simp only [List.filter_cons]
  have : (x != x) = false := by simp
  rw [this]
  apply List.filter_eq_self.mpr
  intro a ha
  simp only [bne_iff_ne, ne_eq, decide_eq_true_eq]
  intro hax
  subst hax
  exact hx ha

/-- Preservation of the output-list invariant by one `dfs` call. -/
theorem dfs_sinv (nodes : List Node) (adj : String → List String) :
    ∀ fuel x s s', dfsF nodes adj fuel x s = some s' →
      RSV s ∧ SINV nodes s → RSV s' ∧ SINV nodes s' := by
  intro fuel
  induction fuel with
  | zero => intro x s s' h; simp [dfsF] at h
  | succ fuel ih =>
    intro x s s' h hJ
    have hrsv := hJ.1
    have hiff := hJ.2.1
    have hnd := hJ.2.2.1
    have hel := hJ.2.2.2
    rw [dfsF] at h
    by_cases h1 : s.recStack.contains x
    · rw [if_pos h1] at h
      cases h
      exact ⟨hJ.1, hiff, hnd, hel⟩
    · rw [if_neg h1] at h
      have h1' : x ∉ s.recStack := by simpa using h1
      by_cases h2 : s.visited.contains x
      · rw [if_pos h2] at h
        cases h
        exact hJ
      · rw [if_neg h2] at h
        have h2' : x ∉ s.visited := by simpa using h2
        simp only at h
        cases hrl : runList (fun b t => dfsF nodes adj fuel b t) (adj x)
            { s with visited := x :: s.visited, recStack := x :: s.recStack } with
        | none => rw [hrl] at h; cases h
        | some s2 =>
          rw [hrl] at h
          have hJ1 : RSV { s with visited := x :: s.visited, recStack := x :: s.recStack } ∧
              SINV nodes { s with visited := x :: s.visited, recStack := x :: s.recStack } := by
            refine ⟨?_, ?_, hnd, hel⟩
            · intro i hi
              rcases List.mem_cons.mp hi with hi | hi
              · simp [hi]
              · exact List.mem_cons_of_mem _ (hrsv i hi)
            · intro i
              constructor
              · intro hi
                obtain ⟨hv, hns, hm⟩ := (hiff i).mp hi
                have hix : i ≠ x := by
                  intro hix; subst hix; exact h2' hv
                exact ⟨List.mem_cons_of_mem _ hv,
                  fun hc => hns ((List.mem_cons.mp hc).resolve_left hix), hm⟩
              · rintro ⟨hv, hns, hm⟩
                have hix : i ≠ x := by
                  intro hix; subst hix; exact hns (by simp)
                refine (hiff i).mpr ⟨?_, fun hc => hns (List.mem_cons_of_mem _ hc), hm⟩
                rcases List.mem_cons.mp hv with hv | hv
                · exact absurd hv hix
                · exact hv
          have hJ2 := runList_pres
            (P := fun a b => (RSV a ∧ SINV nodes a) → (RSV b ∧ SINV nodes b))
            (fun _ => id) (fun _ _ _ hab hbc hq => hbc (hab hq))
            (fun y t t' ht => ih y t t' ht) _ _ _ hrl hJ1
          have hrec2 : s2.recStack = x :: s.recStack := runList_recStack nodes adj fuel hrl
          have hxin : x ∈ s2.visited := runList_visited_mono nodes adj fuel hrl (by simp)
          have hrsv2 := hJ2.1
          have hiff2 := hJ2.2.1
          have hnd2 := hJ2.2.2.1
          have hel2 := hJ2.2.2.2
          have hxstk2 : x ∈ s2.recStack := by rw [hrec2]; simp
          have hxnotid : x ∉ s2.sorted.map Node.id := by
            intro hx
            exact ((hiff2 x).mp hx).2.1 hxstk2
          have hfil : s2.recStack.filter (fun y => y != x) = s.recStack := by
            rw [hrec2]; exact filter_ne_cons_self h1'
          cases hfind : nodes.find? (fun n => n.id == x) with
          | some node =>
            rw [hfind] at h
            cases h
            have hnodeid : node.id = x := by
              have := List.find?_some hfind
              simpa using this
            have hnodemem : node ∈ nodes := List.mem_of_find?_eq_some hfind
            have hmemx : nodeIdMem nodes x = true := by
              simp only [nodeIdMem, List.any_eq_true]
              exact ⟨node, hnodemem, by simp [hnodeid]⟩
            refine ⟨?_, ?_, ?_, ?_⟩
            · intro i hi
              exact hrsv2 i (List.mem_of_mem_filter hi)
            · intro i
              simp only [List.map_cons, hnodeid, List.mem_cons, hfil]
              constructor
              · rintro (hix | hi)
                · subst hix
                  exact ⟨hxin, h1', hmemx⟩
                · obtain ⟨hv, hns, hm⟩ := (hiff2 i).mp hi
                  refine ⟨hv, fun hc => hns (by rw [hrec2]; exact List.mem_cons_of_mem _ hc), hm⟩
              · rintro ⟨hv, hns, hm⟩
                by_cases hix : i = x
                · exact Or.inl hix
                · refine Or.inr ((hiff2 i).mpr ⟨hv, ?_, hm⟩)
                  rw [hrec2]
                  intro hc
                  rcases List.mem_cons.mp hc with hc | hc
                  · exact hix hc
                  · exact hns hc
            · simp only [List.map_cons, hnodeid]
              exact List.nodup_cons.mpr ⟨hxnotid, hnd2⟩
            · intro n hn
              rcases List.mem_cons.mp hn with hn | hn
              · subst hn; exact hnodemem
              · exact hel2 n hn
          | none =>
            rw [hfind] at h
            cases h
            have hmemx : nodeIdMem nodes x = false := by
              simp only [nodeIdMem, List.any_eq_false]
              intro n hn
              have := List.find?_eq_none.mp hfind n hn
              simpa using this
            refine ⟨?_, ?_, hnd2, hel2⟩
            · intro i hi
              exact hrsv2 i (List.mem_of_mem_filter hi)
            · intro i
              simp only [hfil]
              constructor
              · intro hi
                obtain ⟨hv, hns, hm⟩ := (hiff2 i).mp hi
                have hix : i ≠ x := by
                  intro hix; subst hix; rw [hm] at hmemx; cases hmemx
                refine ⟨hv, fun hc => hns (by rw [hrec2]; exact List.mem_cons_of_mem _ hc), hm⟩
              · rintro ⟨hv, hns, hm⟩
                have hix : i ≠ x := by
                  intro hix; subst hix; rw [hm] at hmemx; cases hmemx
                refine (hiff2 i).mpr ⟨hv, ?_, hm⟩
                rw [hrec2]
                intro hc
                rcases List.mem_cons.mp hc with hc | hc
                · exact hix hc
                · exact hns hc

/-- Preservation of the ordering invariant by one `dfs` call. -/
theorem dfs_tinv (nodes : List Node) (adj : String → List String) :
    ∀ fuel x s s', dfsF nodes adj fuel x s = some s' →
      RSV s ∧ TINV nodes adj s → RSV s' ∧ TINV nodes adj s' := by
  intro fuel
  induction fuel with
  | zero => intro x s s' h; simp [dfsF] at h
  | succ fuel ih =>
    intro x s s' h hJ
    have hrsv := hJ.1
    have htinv := hJ.2
    rw [dfsF] at h
    by_cases h1 : s.recStack.contains x
    · rw [if_pos h1] at h
      cases h
      exact ⟨hrsv, fun hc => by cases hc⟩
    · rw [if_neg h1] at h
      have h1' : x ∉ s.recStack := by simpa using h1
      by_cases h2 : s.visited.contains x
      · rw [if_pos h2] at h
        cases h
        exact hJ
      · rw [if_neg h2] at h
        have h2' : x ∉ s.visited := by simpa using h2
        simp only at h
        cases hrl : runList (fun b t => dfsF nodes adj fuel b t) (adj x)
            { s with visited := x :: s.visited, recStack := x :: s.recStack } with
        | none => rw [hrl] at h; cases h
        | some s2 =>
          rw [hrl] at h
          have hrsv1 : RSV { s with visited := x :: s.visited, recStack := x :: s.recStack } := by
            intro i hi
            rcases List.mem_cons.mp hi with hi | hi
            · simp [hi]
            · exact List.mem_cons_of_mem _ (hrsv i hi)
          have htinv1 : TINV nodes adj
              { s with visited := x :: s.visited, recStack := x :: s.recStack } := by
            intro hc
            obtain ⟨L, hLnd, hLiff, hLadj, hLsort⟩ := htinv hc
            refine ⟨L, hLnd, ?_, hLadj, hLsort⟩
            intro i
            constructor
            · intro hi
              obtain ⟨hv, hns⟩ := (hLiff i).mp hi
              have hix : i ≠ x := fun hix => h2' (hix ▸ hv)
              exact ⟨List.mem_cons_of_mem _ hv,
                fun hcm => hns ((List.mem_cons.mp hcm).resolve_left hix)⟩
            · rintro ⟨hv, hns⟩
              have hix : i ≠ x := fun hix => hns (by simp [hix])
              exact (hLiff i).mpr ⟨(List.mem_cons.mp hv).resolve_left hix,
                fun hcm => hns (List.mem_cons_of_mem _ hcm)⟩
          have hJ2 := runList_pres
            (P := fun a b => (RSV a ∧ TINV nodes adj a) → (RSV b ∧ TINV nodes adj b))
            (fun _ => id) (fun _ _ _ hab hbc hq => hbc (hab hq))
            (fun y t t' ht => ih y t t' ht) _ _ _ hrl ⟨hrsv1, htinv1⟩
          have hrsv2 := hJ2.1
          have htinv2 := hJ2.2
          have hrec2 : s2.recStack = x :: s.recStack := runList_recStack nodes adj fuel hrl
          have hxin : x ∈ s2.visited := runList_visited_mono nodes adj fuel hrl (by simp)
          have hfil : s2.recStack.filter (fun y => y != x) = s.recStack := by
            rw [hrec2]; exact filter_ne_cons_self h1'
          have hrsv' : ∀ s3 : SortState, s3.visited = s2.visited →
              s3.recStack = s2.recStack.filter (fun y => y != x) → RSV s3 := by
            intro s3 hv hr i hi
            rw [hr] at hi
            rw [hv]
            exact hrsv2 i (List.mem_of_mem_filter hi)
          -- the common construction of the new witness list
          have hmk : ∀ (newSorted : List Node),
              newSorted.map Node.id =
                (if nodeIdMem nodes x = true then x :: s2.sorted.map Node.id
                 else s2.sorted.map Node.id) →
              s2.hasCycle = false →
              ∃ L : List String, L.Nodup ∧
                (∀ i, i ∈ L ↔ (i ∈ s2.visited ∧ i ∉ s.recStack)) ∧
                (∀ u b, u ∈ L → b ∈ adj u → [u, b].Sublist L) ∧
                newSorted.map Node.id = L.filter (fun i => nodeIdMem nodes i) := by
            intro newSorted hns hc2
            obtain ⟨L, hLnd, hLiff, hLadj, hLsort⟩ := htinv2 hc2
            have hxnotL : x ∉ L := by
              intro hx
              exact ((hLiff x).mp hx).2 (by rw [hrec2]; simp)
            have hnbr : ∀ b ∈ adj x, b ∈ L := by
              intro b hb
              have hbv : b ∈ s2.visited := runList_visits nodes adj fuel _ _ _ hrl hrsv1 b hb
              have hbs : b ∉ s2.recStack := by
                intro hbs
                have : s2.hasCycle = true := by
                  apply runList_hit nodes adj fuel _ _ _ hrl b hb
                  rw [← hrec2]
                  exact hbs
                rw [this] at hc2; cases hc2
              exact (hLiff b).mpr ⟨hbv, hbs⟩
            refine ⟨x :: L, List.nodup_cons.mpr ⟨hxnotL, hLnd⟩, ?_, ?_, ?_⟩
            · intro i
              constructor
              · intro hi
                rcases List.mem_cons.mp hi with hi | hi
                · subst hi
                  exact ⟨hxin, h1'⟩
                · obtain ⟨hv, hns'⟩ := (hLiff i).mp hi
                  refine ⟨hv, fun hcm => hns' ?_⟩
                  rw [hrec2]
                  exact List.mem_cons_of_mem _ hcm
              · rintro ⟨hv, hns'⟩
                by_cases hix : i = x
                · subst hix
                  exact List.mem_cons_self i L
                · refine List.mem_cons_of_mem _ ((hLiff i).mpr ⟨hv, ?_⟩)
                  rw [hrec2]
                  intro hcm
                  rcases List.mem_cons.mp hcm with hcm | hcm
                  · exact hix hcm
                  · exact hns' hcm
            · intro u b hu hb
              rcases List.mem_cons.mp hu with hu | hu
              · subst hu
                exact (List.singleton_sublist.mpr (hnbr b hb)).cons₂ u
              · exact (hLadj u b hu hb).cons x
            · rw [hns]
              by_cases hx : nodeIdMem nodes x = true
              · rw [if_pos hx, List.filter_cons, hLsort]
                simp [hx]
              · have hx' : nodeIdMem nodes x = false := by
                  cases hmx : nodeIdMem nodes x
                  · rfl
                  · exact absurd hmx hx
                rw [if_neg hx, List.filter_cons, hLsort]
                simp [hx']
          cases hfind : nodes.find? (fun n => n.id == x) with
          | some node =>
            rw [hfind] at h
            cases h
            have hnodeid : node.id = x := by
              have := List.find?_some hfind
              simpa using this
            have hmemx : nodeIdMem nodes x = true := by
              simp only [nodeIdMem, List.any_eq_true]
              exact ⟨node, List.mem_of_find?_eq_some hfind, by simp [hnodeid]⟩
            refine ⟨hrsv' _ rfl rfl, ?_⟩
            intro hc
            obtain ⟨L, hLnd, hLiff, hLadj, hLsort⟩ :=
              hmk (node :: s2.sorted) (by simp [hnodeid, hmemx]) hc
            have hLiff' : ∀ i, i ∈ L ↔
                (i ∈ s2.visited ∧ i ∉ List.filter (fun y => y != x) s2.recStack) := by
              rw [hfil]; exact hLiff
            exact ⟨L, hLnd, hLiff', hLadj, hLsort⟩
          | none =>
            rw [hfind] at h
            cases h
            have hmemx : nodeIdMem nodes x = false := by
              simp only [nodeIdMem, List.any_eq_false]
              intro n hn
              have := List.find?_eq_none.mp hfind n hn
              simpa using this
            refine ⟨hrsv' _ rfl rfl, ?_⟩
            intro hc
            obtain ⟨L, hLnd, hLiff, hLadj, hLsort⟩ :=
              hmk s2.sorted (by simp [hmemx]) hc
            have hLiff' : ∀ i, i ∈ L ↔
                (i ∈ s2.visited ∧ i ∉ List.filter (fun y => y != x) s2.recStack) := by
              rw [hfil]; exact hLiff
            exact ⟨L, hLnd, hLiff', hLadj, hLsort⟩

/-- Neighbour-sweep version of `dfs_cyc_src`, parameterised by the
corresponding fact about `dfs` at the same fuel. -/
theorem runList_cyc_src (nodes : List Node) (adj : String → List String) (fuel : Nat)
    (hdfs : ∀ x s s', dfsF nodes adj fuel x s = some s' →
      ReachAdj nodes adj x →
      (∀ c ∈ s.recStack, ReachAdj nodes adj c ∧ Relation.TransGen (StepRel adj) c x) →
      s'.hasCycle = true → s.hasCycle = true ∨ CycAdj nodes adj) :
    ∀ l s s', runList (fun b t => dfsF nodes adj fuel b t) l s = some s' →
      (∀ b ∈ l, ReachAdj nodes adj b) →
      (∀ c ∈ s.recStack, ReachAdj nodes adj c ∧
        ∀ b ∈ l, Relation.TransGen (StepRel adj) c b) →
      s'.hasCycle = true → s.hasCycle = true ∨ CycAdj nodes adj := by
  intro l
  induction l with
  | nil => intro s s' h _ _ hc; cases h; exact Or.inl hc
  | cons y ys ih =>
    intro s s' h hb hrec hc
    rw [runList] at h
    cases hx : dfsF nodes adj fuel y s with
    | none => rw [hx] at h; cases h
    | some t =>
      rw [hx] at h
      have hrect : ∀ c ∈ t.recStack, ReachAdj nodes adj c ∧
          ∀ b ∈ ys, Relation.TransGen (StepRel adj) c b := by
        intro c hcs
        rw [dfs_recStack_eq nodes adj hx] at hcs
        exact ⟨(hrec c hcs).1, fun b hb' => (hrec c hcs).2 b (List.mem_cons_of_mem _ hb')⟩
      rcases ih t s' h (fun b hb' => hb b (List.mem_cons_of_mem _ hb')) hrect hc with hct | hcy
      · rcases hdfs y s t hx (hb y (by simp))
          (fun c hcs => ⟨(hrec c hcs).1, (hrec c hcs).2 y (by simp)⟩) hct with hcs | hcy
        · exact Or.inl hcs
        · exact Or.inr hcy
      · exact Or.inr hcy

/-- If a `dfs` call sets the cycle flag, the graph has a reachable cycle
(given the stack discipline: every stacked id reaches the argument). -/
theorem dfs_cyc_src (nodes : List Node) (adj : String → List String) :
    ∀ fuel x s s', dfsF nodes adj fuel x s = some s' →
      ReachAdj nodes adj x →
      (∀ c ∈ s.recStack, ReachAdj nodes adj c ∧ Relation.TransGen (StepRel adj) c x) →
      s'.hasCycle = true → s.hasCycle = true ∨ CycAdj nodes adj := by
  intro fuel
  induction fuel with
  | zero => intro x s s' h; simp [dfsF] at h
  | succ fuel ih =>
    intro x s s' h hreach hrec hc
    rw [dfsF] at h
    by_cases h1 : s.recStack.contains x
    · have h1' : x ∈ s.recStack := by simpa using h1
      exact Or.inr ⟨x, hreach, (hrec x h1').2⟩
    · rw [if_neg h1] at h
      by_cases h2 : s.visited.contains x
      · rw [if_pos h2] at h
        cases h
        exact Or.inl hc
      · rw [if_neg h2] at h
        simp only at h
        cases hrl : runList (fun b t => dfsF nodes adj fuel b t) (adj x)
            { s with visited := x :: s.visited, recStack := x :: s.recStack } with
        | none => rw [hrl] at h; cases h
        | some s2 =>
          rw [hrl] at h
          have hc2 : s2.hasCycle = true := by
            cases hfind : nodes.find? (fun n => n.id == x) with
            | some node => rw [hfind] at h; cases h; exact hc
            | none => rw [hfind] at h; cases h; exact hc
          have hnbReach : ∀ b ∈ adj x, ReachAdj nodes adj b := by
            intro b hbadj
            obtain ⟨n, hn, hpath⟩ := hreach
            exact ⟨n, hn, hpath.tail hbadj⟩
          have hrec1 : ∀ c ∈ x :: s.recStack, ReachAdj nodes adj c ∧
              ∀ b ∈ adj x, Relation.TransGen (StepRel adj) c b := by
            intro c hcs
            rcases List.mem_cons.mp hcs with hcs | hcs
            · subst hcs
              exact ⟨hreach, fun b hbadj => Relation.TransGen.single hbadj⟩
            · exact ⟨(hrec c hcs).1,
                fun b hbadj => ((hrec c hcs).2).tail hbadj⟩
          rcases runList_cyc_src nodes adj fuel ih _ _ _ hrl hnbReach hrec1 hc2 with hcs | hcy
          · exact Or.inl hcs
          · exact Or.inr hcy

/-- Remaining-nodes version of `dfs_cyc_src` over an empty stack. -/
theorem runRem_cyc_src (nodes : List Node) (adj : String → List String) (fuel : Nat) :
    ∀ l s s', runRem (fun b t => dfsF nodes adj fuel b t) l s = some s' →
      (∀ n ∈ l, ReachAdj nodes adj n.id) → s.recStack = [] →
      s'.hasCycle = true → s.hasCycle = true ∨ CycAdj nodes adj := by
  intro l
  induction l with
  | nil => intro s s' h _ _ hc; cases h; exact Or.inl hc
  | cons y ys ih =>
    intro s s' h hb hstk hc
    rw [runRem] at h
    by_cases hv : s.visited.contains y.id
    · rw [if_pos hv] at h
      exact ih s s' h (fun n hn => hb n (List.mem_cons_of_mem _ hn)) hstk hc
    · rw [if_neg hv] at h
      cases hx : dfsF nodes adj fuel y.id s with
      | none => rw [hx] at h; cases h
      | some t =>
        rw [hx] at h
        have htstk : t.recStack = [] := by rw [dfs_recStack_eq nodes adj hx, hstk]
        rcases ih t s' h (fun n hn => hb n (List.mem_cons_of_mem _ hn)) htstk hc with hct | hcy
        · rcases dfs_cyc_src nodes adj fuel y.id s t hx (hb y (by simp))
            (fun c hcs => by rw [hstk] at hcs; cases hcs) hct with hcs | hcy
          · exact Or.inl hcs
          · exact Or.inr hcy
        · exact Or.inr hcy

/-- A successful `dfs` run is reproduced identically by any larger fuel. -/
theorem dfs_fuel_mono (nodes : List Node) (adj : String → List String) :
    ∀ fuel fuel', fuel ≤ fuel' → ∀ x s s',
      dfsF nodes adj fuel x s = some s' → dfsF nodes adj fuel' x s = some s' := by
  intro fuel
  induction fuel with
  | zero => intro fuel' _ x s s' h; simp [dfsF] at h
  | succ fuel ih =>
    intro fuel' hle x s s' h
    cases fuel' with
    | zero => omega
    | succ fuel'' =>
      have hle' : fuel ≤ fuel'' := by omega
      rw [dfsF] at h ⊢
      by_cases h1 : s.recStack.contains x
      · rw [if_pos h1] at h ⊢; exact h
      · rw [if_neg h1] at h ⊢
        by_cases h2 : s.visited.contains x
        · rw [if_pos h2] at h ⊢; exact h
        · rw [if_neg h2] at h ⊢
          simp only at h ⊢
          cases hrl : runList (fun b t => dfsF nodes adj fuel b t) (adj x)
              { s with visited := x :: s.visited, recStack := x :: s.recStack } with
          | none => rw [hrl] at h; cases h
          | some s2 =>
            rw [hrl] at h
            have hrl' := runList_lift (fun y t r hr => ih fuel'' hle' y t r hr) _ _ _ hrl
            rw [hrl']
            exact h

theorem filter_len_mono : ∀ (l : List String) (p q : String → Bool),
    (∀ a, p a = true → q a = true) → (l.filter p).length ≤ (l.filter q).length := by
  intro l p q hpq
  induction l with
  | nil => simp
  | cons a as ih =>
    simp only [List.filter_cons]
    cases hp : p a with
    | true =>
      rw [hpq a hp, if_pos rfl, if_pos rfl]
      simpa using ih
    | false =>
      rw [if_neg (by simp)]
      cases hq : q a with
      | true =>
        rw [if_pos rfl]
        simp only [List.length_cons]
        omega
      | false =>
        rw [if_neg (by simp)]
        exact ih

theorem filter_len_lt : ∀ (l : List String) (p q : String → Bool),
    (∀ a, p a = true → q a = true) →
    ∀ x ∈ l, q x = true → p x = false → (l.filter p).length < (l.filter q).length := by
  intro l p q hpq
  induction l with
  | nil => intro x hx; cases hx
  | cons a as ih =>
    intro x hx hqx hpx
    simp only [List.filter_cons]
    rcases List.mem_cons.mp hx with hxa | hxa
    · subst hxa
      rw [hpx, hqx, if_neg (by simp), if_pos rfl]
      have := filter_len_mono as p q hpq
      simp only [List.length_cons]
      omega
    · have := ih x hxa hqx hpx
      cases hp : p a with
      | true =>
        rw [hpq a hp, if_pos rfl, if_pos rfl]
        simpa using this
      | false =>
        rw [if_neg (by simp)]
        cases hq : q a with
        | true =>
          rw [if_pos rfl]
          simp only [List.length_cons]
          omega
        | false =>
          rw [if_neg (by simp)]
          exact this

theorem unvis_mono {uni : List String} {s s' : SortState}
    (h : s.visited ⊆ s'.visited) : unvis uni s' ≤ unvis uni s := by
  apply filter_len_mono
  intro a ha
  simp only [Bool.not_eq_true'] at ha ⊢
  cases hc : s.visited.contains a with
  | false => rfl
  | true =>
    have : a ∈ s'.visited := h (by simpa using hc)
    rw [(by simpa using this : s'.visited.contains a = true)] at ha
    cases ha

theorem unvis_lt {uni : List String} {s s' : SortState}
    (h : s.visited ⊆ s'.visited) (x : String) (hxU : x ∈ uni)
    (hxold : x ∉ s.visited) (hxnew : x ∈ s'.visited) :
    unvis uni s' < unvis uni s := by
  apply filter_len_lt
  · intro a ha
    simp only [Bool.not_eq_true'] at ha ⊢
    cases hc : s.visited.contains a with
    | false => rfl
    | true =>
      have : a ∈ s'.visited := h (by simpa using hc)
      rw [(by simpa using this : s'.visited.contains a = true)] at ha
      cases ha
  · exact hxU
  · simp only [Bool.not_eq_true']
    cases hc : s.visited.contains x with
    | false => rfl
    | true => exact absurd (by simpa using hc) hxold
  · simpa using hxnew

/-- Sweep version of fuel sufficiency, given it for `dfs` at this fuel. -/
theorem runList_fuel_enough (nodes : List Node) (adj : String → List String)
    (uni : List String) (fuel : Nat)
    (hf : ∀ y t, y ∈ uni → unvis uni t < fuel → (dfsF nodes adj fuel y t).isSome) :
    ∀ l, (∀ b ∈ l, b ∈ uni) → ∀ s, unvis uni s < fuel →
      (runList (fun b t => dfsF nodes adj fuel b t) l s).isSome := by
  intro l
  induction l with
  | nil => intro _ s _; simp [runList]
  | cons y ys ih =>
    intro hb s hs
    rw [runList]
    cases hx : dfsF nodes adj fuel y s with
    | none =>
      have := hf y s (hb y (by simp)) hs
      rw [hx] at this
      cases this
    | some t =>
      have hts : unvis uni t ≤ unvis uni s := unvis_mono (dfs_visited_mono nodes adj hx)
      exact ih (fun b hb' => hb b (List.mem_cons_of_mem _ hb')) t (by omega)

/-- The fuel bound `unvis + 1` is sufficient for `dfs`. -/
theorem dfs_fuel_enough (nodes : List Node) (adj : String → List String)
    (uni : List String) (hadj : ∀ y, ∀ b ∈ adj y, b ∈ uni) :
    ∀ fuel x s, x ∈ uni → unvis uni s < fuel →
      (dfsF nodes adj fuel x s).isSome := by
  intro fuel
  induction fuel with
  | zero => intro x s _ h; omega
  | succ fuel ih =>
    intro x s hxU hs
    rw [dfsF]
    by_cases h1 : s.recStack.contains x
    · rw [if_pos h1]; rfl
    · rw [if_neg h1]
      by_cases h2 : s.visited.contains x
      · rw [if_pos h2]; rfl
      · rw [if_neg h2]
        simp only
        have h2' : x ∉ s.visited := by simpa using h2
        have hs1 : unvis uni { s with visited := x :: s.visited, recStack := x :: s.recStack }
            < unvis uni s :=
          unvis_lt (by intro a ha; exact List.mem_cons_of_mem _ ha) x hxU h2' (by simp)
        have := runList_fuel_enough nodes adj uni fuel ih (adj x) (hadj x)
          { s with visited := x :: s.visited, recStack := x :: s.recStack } (by omega)
        cases hrl : runList (fun b t => dfsF nodes adj fuel b t) (adj x)
            { s with visited := x :: s.visited, recStack := x :: s.recStack } with
        | none => rw [hrl] at this; cases this
        | some s2 => rfl

/-- The remaining-nodes loop never exhausts sufficient fuel either. -/
theorem runRem_fuel_enough (nodes : List Node) (adj : String → List String)
    (uni : List String) (fuel : Nat)
    (hf : ∀ y t, y ∈ uni → unvis uni t < fuel → (dfsF nodes adj fuel y t).isSome) :
    ∀ l, (∀ n ∈ l, n.id ∈ uni) → ∀ s, unvis uni s < fuel →
      (runRem (fun b t => dfsF nodes adj fuel b t) l s).isSome := by
  intro l
  induction l with
  | nil => intro _ s _; simp [runRem]
  | cons y ys ih =>
    intro hb s hs
    rw [runRem]
    by_cases hv : s.visited.contains y.id
    · rw [if_pos hv]
      exact ih (fun n hn => hb n (List.mem_cons_of_mem _ hn)) s hs
    · rw [if_neg hv]
      cases hx : dfsF nodes adj fuel y.id s with
      | none =>
        have := hf y.id s (hb y (by simp)) hs
        rw [hx] at this
        cases this
      | some t =>
        have hts : unvis uni t ≤ unvis uni s := unvis_mono (dfs_visited_mono nodes adj hx)
        exact ih (fun n hn => hb n (List.mem_cons_of_mem _ hn)) t (by omega)

/-- Unfolding of `sortRun` into its two phases. -/
theorem sortRun_unfold (fuel : Nat) (nodes : List Node) (edges : List Edge) :
    sortRun fuel nodes edges =
      match (if (nodes.filter (fun n =>
            !((edges.map Edge.target).contains n.id))).isEmpty && !nodes.isEmpty then
          match nodes with
          | [] => some (⟨[], [], [], false, []⟩ : SortState)
          | n :: _ => dfsF nodes (adjOf edges) fuel n.id ⟨[], [], [], false, []⟩
        else
          runList (fun b t => dfsF nodes (adjOf edges) fuel b t)
            ((nodes.filter (fun n => !((edges.map Edge.target).contains n.id))).map Node.id)
            ⟨[], [], [], false, []⟩) with
      | none => none
      | some s => runRem (fun b t => dfsF nodes (adjOf edges) fuel b t) nodes s := rfl

/-- The canonical fuel makes the whole traversal succeed. -/
theorem sortRun_total (nodes : List Node) (edges : List Edge) :
    ∃ s', sortRun (sortFuel nodes edges) nodes edges = some s' := by
  set uni := nodes.map Node.id ++ edges.map Edge.target with huni
  have hadj : ∀ y, ∀ b ∈ adjOf edges y, b ∈ uni := by
    intro y b hb
    simp only [adjOf, List.mem_map] at hb
    obtain ⟨e, he, hbe⟩ := hb
    refine List.mem_append_right _ ?_
    exact List.mem_map.mpr ⟨e, List.mem_of_mem_filter he, hbe⟩
  have hnid : ∀ n ∈ nodes, n.id ∈ uni := by
    intro n hn
    exact List.mem_append_left _ (List.mem_map.mpr ⟨n, hn, rfl⟩)
  have hfuel : ∀ s : SortState, unvis uni s < sortFuel nodes edges := by
    intro s
    have h1 : unvis uni s ≤ uni.length := List.length_filter_le _ _
    have h2 : sortFuel nodes edges = uni.length + 1 := by rw [huni]; rfl
    omega
  have hf := fun y t hy ht =>
    dfs_fuel_enough nodes (adjOf edges) uni hadj (sortFuel nodes edges) y t hy ht
  have hAE : ∃ sE, (if (nodes.filter (fun n =>
        !((edges.map Edge.target).contains n.id))).isEmpty && !nodes.isEmpty then
      match nodes with
      | [] => some (⟨[], [], [], false, []⟩ : SortState)
      | n :: _ => dfsF nodes (adjOf edges) (sortFuel nodes edges) n.id ⟨[], [], [], false, []⟩
    else
      runList (fun b t => dfsF nodes (adjOf edges) (sortFuel nodes edges) b t)
        ((nodes.filter (fun n => !((edges.map Edge.target).contains n.id))).map Node.id)
        ⟨[], [], [], false, []⟩) = some sE := by
    by_cases hcond : ((nodes.filter (fun n =>
        !((edges.map Edge.target).contains n.id))).isEmpty && !nodes.isEmpty) = true
    · rw [if_pos hcond]
      cases hn : nodes with
      | nil => exact ⟨⟨[], [], [], false, []⟩, rfl⟩
      | cons n ns =>
        have hmem : n ∈ nodes := by rw [hn]; exact List.mem_cons_self n ns
        have hsome := hf n.id ⟨[], [], [], false, []⟩ (hnid n hmem) (hfuel _)
        obtain ⟨sE, hsE⟩ := Option.isSome_iff_exists.mp hsome
        rw [hn] at hsE
        exact ⟨sE, hsE⟩
    · rw [if_neg (by simpa using hcond)]
      have := runList_fuel_enough nodes (adjOf edges) uni (sortFuel nodes edges) hf
        ((nodes.filter (fun n => !((edges.map Edge.target).contains n.id))).map Node.id)
        (by
          intro b hb
          simp only [List.mem_map] at hb
          obtain ⟨n, hn, hbn⟩ := hb
          exact hbn ▸ hnid n (List.mem_of_mem_filter hn))
        ⟨[], [], [], false, []⟩ (hfuel _)
      exact Option.isSome_iff_exists.mp this
  obtain ⟨sE, hAEeq⟩ := hAE
  have hRs := runRem_fuel_enough nodes (adjOf edges) uni (sortFuel nodes edges) hf
    nodes hnid sE (hfuel _)
  obtain ⟨s', hR⟩ := Option.isSome_iff_exists.mp hRs
  refine ⟨s', ?_⟩
  rw [sortRun_unfold, hAEeq]
  exact hR

/-- A successful traversal is an entry sweep from node ids followed by the
remaining-nodes loop. -/
theorem sortRun_split (fuel : Nat) (nodes : List Node) (edges : List Edge) (s' : SortState)
    (h : sortRun fuel nodes edges = some s') :
    ∃ l sE, (∀ b ∈ l, b ∈ nodes.map Node.id) ∧
      runList (fun b t => dfsF nodes (adjOf edges) fuel b t) l ⟨[], [], [], false, []⟩ = some sE ∧
      runRem (fun b t => dfsF nodes (adjOf edges) fuel b t) nodes sE = some s' := by
  rw [sortRun_unfold] at h
  split at h
  · cases h
  · next sE hAE =>
    split at hAE
    · -- entry branch: no entry nodes and a non-empty node list
      split at hAE
      · -- empty node list
        cases hAE
        refine ⟨[], (⟨[], [], [], false, []⟩ : SortState), ?_, rfl, h⟩
        intro b hb
        cases hb
      · -- first node
        next n tail hcond =>
        refine ⟨[n.id], sE, ?_, ?_, h⟩
        · intro b hb
          rcases List.mem_cons.mp hb with hb | hb
          · subst hb
            exact List.mem_map.mpr ⟨n, List.mem_cons_self n tail, rfl⟩
          · cases hb
        · simp only [runList, hAE]
    · -- entry sweep over the entry-node ids
      refine ⟨(nodes.filter (fun n => !((edges.map Edge.target).contains n.id))).map Node.id,
        sE, ?_, hAE, h⟩
      intro b hb
      simp only [List.mem_map] at hb
      obtain ⟨n, hn, hbn⟩ := hb
      exact List.mem_map.mpr ⟨n, List.mem_of_mem_filter hn, hbn⟩

/-- The remaining-nodes loop marks every listed node id visited. -/
theorem runRem_visits (nodes : List Node) (adj : String → List String) (fuel : Nat) :
    ∀ l s s', runRem (fun b t => dfsF nodes adj fuel b t) l s = some s' → RSV s →
      ∀ n ∈ l, n.id ∈ s'.visited := by
  intro l
  induction l with
  | nil => intro s s' h _ n hn; cases hn
  | cons y ys ih =>
    intro s s' h hq n hn
    rw [runRem] at h
    by_cases hv : s.visited.contains y.id
    · rw [if_pos hv] at h
      rcases List.mem_cons.mp hn with hn | hn
      · subst hn
        have hmono : s.visited ⊆ s'.visited :=
          runRem_pres (P := fun a b => a.visited ⊆ b.visited)
            (fun _ => fun a ha => ha) (fun _ _ _ hab hbc i hi => hbc (hab hi))
            (fun _ _ _ ht => dfs_visited_mono nodes adj ht) _ _ _ h
        exact hmono (by simpa using hv)
      · exact ih s s' h hq n hn
    · rw [if_neg hv] at h
      cases hx : dfsF nodes adj fuel y.id s with
      | none => rw [hx] at h; cases h
      | some t =>
        rw [hx] at h
        have hvt := dfs_visits nodes adj fuel y.id s t hx hq
        rcases List.mem_cons.mp hn with hn | hn
        · subst hn
          have hmono : t.visited ⊆ s'.visited :=
            runRem_pres (P := fun a b => a.visited ⊆ b.visited)
              (fun _ => fun a ha => ha) (fun _ _ _ hab hbc i hi => hbc (hab hi))
              (fun _ _ _ ht => dfs_visited_mono nodes adj ht) _ _ _ h
          exact hmono hvt.2
        · exact ih t s' h hvt.1 n hn

/-- All the final-state facts about a successful traversal. -/
theorem sortRun_facts (fuel : Nat) (nodes : List Node) (edges : List Edge) (s' : SortState)
    (h : sortRun fuel nodes edges = some s') :
    RSV s' ∧ SINV nodes s' ∧ TINV nodes (adjOf edges) s' ∧ s'.recStack = [] ∧
    (∀ n ∈ nodes, n.id ∈ s'.visited) ∧ s'.hasCycle = !s'.cycleNodes.isEmpty ∧
    (s'.hasCycle = true → CycAdj nodes (adjOf edges)) := by
  obtain ⟨l, sE, hl, hrl, hrem⟩ := sortRun_split fuel nodes edges s' h
  set adj := adjOf edges with hadj
  have hJ0 : RSV (⟨[], [], [], false, []⟩ : SortState) ∧
      SINV nodes ⟨[], [], [], false, []⟩ := by
    constructor
    · intro i hi
      cases hi
    · unfold SINV
      refine ⟨?_, by simp, ?_⟩
      · intro i
        constructor
        · intro hi
          simp at hi
        · rintro ⟨hv, -⟩
          cases hv
      · intro n hn
        cases hn
  have hT0 : TINV nodes adj (⟨[], [], [], false, []⟩ : SortState) := by
    intro _
    refine ⟨[], by simp, ?_, ?_, by simp⟩
    · intro i
      constructor
      · intro hi
        cases hi
      · rintro ⟨hv, -⟩
        cases hv
    · intro u b hu
      cases hu
  have hJE : RSV sE ∧ SINV nodes sE :=
    runList_pres (P := fun a b => (RSV a ∧ SINV nodes a) → (RSV b ∧ SINV nodes b))
      (fun _ => id) (fun _ _ _ hab hbc hq => hbc (hab hq))
      (fun y t t' ht => dfs_sinv nodes adj fuel y t t' ht) _ _ _ hrl hJ0
  have hTE : RSV sE ∧ TINV nodes adj sE :=
    runList_pres (P := fun a b => (RSV a ∧ TINV nodes adj a) → (RSV b ∧ TINV nodes adj b))
      (fun _ => id) (fun _ _ _ hab hbc hq => hbc (hab hq))
      (fun y t t' ht => dfs_tinv nodes adj fuel y t t' ht) _ _ _ hrl ⟨hJ0.1, hT0⟩
  have hJ' : RSV s' ∧ SINV nodes s' :=
    runRem_pres (P := fun a b => (RSV a ∧ SINV nodes a) → (RSV b ∧ SINV nodes b))
      (fun _ => id) (fun _ _ _ hab hbc hq => hbc (hab hq))
      (fun y t t' ht => dfs_sinv nodes adj fuel y t t' ht) _ _ _ hrem hJE
  have hT' : RSV s' ∧ TINV nodes adj s' :=
    runRem_pres (P := fun a b => (RSV a ∧ TINV nodes adj a) → (RSV b ∧ TINV nodes adj b))
      (fun _ => id) (fun _ _ _ hab hbc hq => hbc (hab hq))
      (fun y t t' ht => dfs_tinv nodes adj fuel y t t' ht) _ _ _ hrem hTE
  have hstkE : sE.recStack = [] := by
    have := runList_recStack nodes adj fuel hrl
    simpa using this
  have hstk' : s'.recStack = [] := by
    have := runRem_pres (P := fun a b => b.recStack = a.recStack)
      (fun _ => rfl) (fun _ _ _ hab hbc => hbc.trans hab)
      (fun _ _ _ ht => dfs_recStack_eq nodes adj ht) _ _ _ hrem
    rw [this, hstkE]
  have hcover : ∀ n ∈ nodes, n.id ∈ s'.visited :=
    runRem_visits nodes adj fuel nodes sE s' hrem hJE.1
  have hcycE : ∃ t, sE.cycleNodes = t ∧ sE.hasCycle = !t.isEmpty := by
    have := runList_pres (P := fun a b =>
        ∃ t, b.cycleNodes = a.cycleNodes ++ t ∧ b.hasCycle = (a.hasCycle || !t.isEmpty))
      (fun _ => ⟨[], by simp, by simp⟩)
      (fun a b c hab hbc => by
        obtain ⟨t1, c1, y1⟩ := hab
        obtain ⟨t2, c2, y2⟩ := hbc
        refine ⟨t1 ++ t2, ?_, ?_⟩
        · rw [c2, c1, List.append_assoc]
        · rw [y2, y1, Bool.or_assoc]
          congr 1
          cases t1 <;> cases t2 <;> simp)
      (fun y t t' ht => (dfs_basic nodes adj fuel y t t' ht).2.2) _ _ _ hrl
    obtain ⟨t, hc, hy⟩ := this
    exact ⟨t, by simpa using hc, by simpa using hy⟩
  have hcyc' : s'.hasCycle = !s'.cycleNodes.isEmpty := by
    have := runRem_pres (P := fun a b =>
        ∃ t, b.cycleNodes = a.cycleNodes ++ t ∧ b.hasCycle = (a.hasCycle || !t.isEmpty))
      (fun _ => ⟨[], by simp, by simp⟩)
      (fun a b c hab hbc => by
        obtain ⟨t1, c1, y1⟩ := hab
        obtain ⟨t2, c2, y2⟩ := hbc
        refine ⟨t1 ++ t2, ?_, ?_⟩
        · rw [c2, c1, List.append_assoc]
        · rw [y2, y1, Bool.or_assoc]
          congr 1
          cases t1 <;> cases t2 <;> simp)
      (fun y t t' ht => (dfs_basic nodes adj fuel y t t' ht).2.2) _ _ _ hrem
    obtain ⟨t2, hc2, hy2⟩ := this
    obtain ⟨t1, hc1, hy1⟩ := hcycE
    rw [hc2, hy2, hc1, hy1]
    cases t1 <;> cases t2 <;> simp
  have hsrc : s'.hasCycle = true → CycAdj nodes adj := by
    intro hc
    have hReach : ∀ b ∈ l, ReachAdj nodes adj b := by
      intro b hb
      exact ⟨b, hl b hb, Relation.ReflTransGen.refl⟩
    have hReachN : ∀ n ∈ nodes, ReachAdj nodes adj n.id := by
      intro n hn
      exact ⟨n.id, List.mem_map.mpr ⟨n, hn, rfl⟩, Relation.ReflTransGen.refl⟩
    rcases runRem_cyc_src nodes adj fuel nodes sE s' hrem hReachN hstkE hc with hcE | hcy
    · rcases runList_cyc_src nodes adj fuel (dfs_cyc_src nodes adj fuel) l
        (⟨[], [], [], false, []⟩ : SortState) sE hrl
        hReach (by intro c hcs; cases hcs) hcE with hc0 | hcy
      · cases hc0
      · exact hcy
    · exact hcy
  exact ⟨hJ'.1, hJ'.2, hT'.2, hstk', hcover, hcyc', hsrc⟩

/-- `topologicalSort` agrees with the final traversal state. -/
theorem topologicalSort_spec (nodes : List Node) (edges : List Edge) :
    ∃ s', sortRun (sortFuel nodes edges) nodes edges = some s' ∧
      (topologicalSort nodes edges).sorted = s'.sorted ∧
      (topologicalSort nodes edges).hasCycle = s'.hasCycle ∧
      (topologicalSort nodes edges).cycleNodes =
        (if s'.hasCycle = true then some (firstDedup s'.cycleNodes) else none) := by
  obtain ⟨s', h⟩ := sortRun_total nodes edges
  refine ⟨s', h, ?_, ?_, ?_⟩ <;>
    simp [topologicalSort, topologicalSortF, h]

/-- The edge relation is the step relation of the built adjacency list. -/
theorem edgeRel_eq_step (edges : List Edge) : EdgeRel edges = StepRel (adjOf edges) := by
  funext a b
  apply propext
  constructor
  · rintro ⟨e, he, hs, ht⟩
    simp only [StepRel, adjOf, List.mem_map]
    exact ⟨e, List.mem_filter.mpr ⟨he, by simp [hs]⟩, ht⟩
  · intro h
    simp only [StepRel, adjOf, List.mem_map] at h
    obtain ⟨e, he, ht⟩ := h
    have := List.mem_filter.mp he
    exact ⟨e, this.1, by simpa using this.2, ht⟩

/-- The spec-level reachable cycle is the adjacency-level one. -/
theorem hasReachableCycle_iff (nodes : List Node) (edges : List Edge) :
    HasReachableCycle nodes edges ↔ CycAdj nodes (adjOf edges) := by
  unfold HasReachableCycle CycAdj ReachableFromNodes ReachAdj
  rw [edgeRel_eq_step]

/-- A two-element sublist splits the list in three. -/
theorem sublist_pair_decomp {a b : String} :
    ∀ {L : List String}, [a, b].Sublist L → ∃ l₁ l₂ l₃, L = l₁ ++ a :: l₂ ++ b :: l₃ := by
  intro L
  induction L with
  | nil => intro h; exact absurd h (by simp)
  | cons x xs ih =>
    intro h
    cases h with
    | cons _ h' =>
      obtain ⟨l₁, l₂, l₃, hds⟩ := ih h'
      exact ⟨x :: l₁, l₂, l₃, by rw [hds]; rfl⟩
    | cons₂ _ h' =>
      have hb : b ∈ xs := List.singleton_sublist.mp h'
      obtain ⟨p, q, hx⟩ := List.append_of_mem hb
      exact ⟨[], p, q, by rw [hx]; simp⟩

/-- Positions in a duplicate-free list: the head of a decomposition comes
before every member of its tail. -/
theorem idx_lt_of_decomp {a b : String} :
    ∀ (l₁ l₂ : List String), (l₁ ++ a :: l₂).Nodup → b ∈ l₂ →
      idxIn a (l₁ ++ a :: l₂) < idxIn b (l₁ ++ a :: l₂) := by
  intro l₁
  induction l₁ with
  | nil =>
    intro l₂ hnd hb
    have hab : a ≠ b := by
      intro hab
      subst hab
      exact (List.nodup_cons.mp hnd).1 hb
    simp only [List.nil_append, idxIn]
    rw [if_pos (by simp), if_neg (by simpa using hab)]
    omega
  | cons x l₁ ih =>
    intro l₂ hnd hb
    have hnd' : (l₁ ++ a :: l₂).Nodup := (List.nodup_cons.mp hnd).2
    have hxmem := (List.nodup_cons.mp hnd).1
    have hxa : x ≠ a := by
      intro hxa
      exact hxmem (by rw [hxa]; exact List.mem_append_right _ (by simp))
    have hxb : x ≠ b := by
      intro hxb
      exact hxmem (by rw [hxb]; exact List.mem_append_right _ (List.mem_cons_of_mem _ hb))
    have hih := ih l₂ hnd' hb
    simp only [List.cons_append, idxIn, List.append_eq]
    rw [if_neg (by simpa using hxa), if_neg (by simpa using hxb)]
    omega

/-- First-occurrence dedup of a non-empty list is non-empty. -/
theorem firstDedup_ne_nil {l : List String} (h : l ≠ []) : firstDedup l ≠ [] := by
  cases l with
  | nil => exact absurd rfl h
  | cons x xs =>
    have aux : ∀ (ys acc : List String),
        acc.length ≤ (ys.foldl (fun acc x => if acc.contains x then acc else acc ++ [x]) acc).length := by
      intro ys
      induction ys with
      | nil => intro acc; simp
      | cons y ys ih =>
        intro acc
        simp only [List.foldl_cons]
        by_cases hc : acc.contains y
        · rw [if_pos hc]
          exact ih acc
        · rw [if_neg hc]
          calc acc.length ≤ (acc ++ [y]).length := by simp
            _ ≤ _ := ih _
    intro hnil
    unfold firstDedup at hnil
    simp only [List.foldl_cons] at hnil
    have h1 := aux xs (if ([] : List String).contains x then [] else [] ++ [x])
    rw [hnil] at h1
    simp at h1

/-- A list in which every id precedes its neighbours is closed under
reachability and admits no cycle through its members. -/
theorem ordered_no_cycle (adj : String → List String) (L : List String)
    (hnd : L.Nodup) (hadjp : ∀ u b, u ∈ L → b ∈ adj u → [u, b].Sublist L) :
    (∀ a v, Relation.ReflTransGen (StepRel adj) a v → a ∈ L → v ∈ L) ∧
    (∀ v, v ∈ L → ¬ Relation.TransGen (StepRel adj) v v) := by
  have hstep : ∀ u b, u ∈ L → b ∈ adj u → b ∈ L ∧ idxIn u L < idxIn b L := by
    intro u b hu hb
    obtain ⟨l₁, l₂, l₃, hds⟩ := sublist_pair_decomp (hadjp u b hu hb)
    have hds' : L = l₁ ++ u :: (l₂ ++ b :: l₃) := by
      rw [hds]
      simp [List.cons_append, List.append_assoc]
    constructor
    · rw [hds']
      exact List.mem_append_right _ (List.mem_cons_of_mem _
        (List.mem_append_right _ (by simp)))
    · have hnd' : (l₁ ++ u :: (l₂ ++ b :: l₃)).Nodup := by
        rw [← hds']
        exact hnd
      have hkey := idx_lt_of_decomp l₁ (l₂ ++ b :: l₃) hnd'
        (List.mem_append_right _ (by simp) : b ∈ l₂ ++ b :: l₃)
      rw [hds']
      exact hkey
  constructor
  · intro a v h
    induction h with
    | refl => exact id
    | tail hav hstep' ih =>
      intro ha
      exact (hstep _ _ (ih ha) hstep').1
  · intro v hv hcyc
    have key : ∀ x y, Relation.TransGen (StepRel adj) x y →
        x ∈ L → y ∈ L ∧ idxIn x L < idxIn y L := by
      intro x y h
      induction h with
      | single h1 =>
        intro hx
        exact hstep _ _ hx h1
      | tail h1 h2 ih =>
        intro hx
        obtain ⟨hy', hlt⟩ := ih hx
        obtain ⟨hy, hlt2⟩ := hstep _ _ hy' h2
        exact ⟨hy, lt_trans hlt hlt2⟩
    have := (key v v hcyc hv).2
    omega

/-- For unique node ids the traversal outputs a permutation of the nodes. -/
theorem topologicalSort_perm (nodes : List Node) (edges : List Edge)
    (hnd : (nodes.map Node.id).Nodup) :
    (topologicalSort nodes edges).sorted.Perm nodes := by
  obtain ⟨s', hrun, hsorted, -, -⟩ := topologicalSort_spec nodes edges
  obtain ⟨hrsv, hsinv, htinv, hstk, hcover, hcycEq, hsrc⟩ := sortRun_facts _ _ _ _ hrun
  rw [hsorted]
  have hiff := hsinv.1
  have hndids := hsinv.2.1
  have hels := hsinv.2.2
  have hmem : ∀ i, i ∈ s'.sorted.map Node.id ↔ i ∈ nodes.map Node.id := by
    intro i
    rw [hiff i]
    constructor
    · rintro ⟨-, -, hm⟩
      simp only [nodeIdMem, List.any_eq_true] at hm
      obtain ⟨n, hn, hni⟩ := hm
      exact List.mem_map.mpr ⟨n, hn, by simpa using hni⟩
    · intro hi
      obtain ⟨n, hn, hni⟩ := List.mem_map.mp hi
      refine ⟨hni ▸ hcover n hn, ?_, ?_⟩
      · rw [hstk]
        intro hc
        cases hc
      · simp only [nodeIdMem, List.any_eq_true]
        exact ⟨n, hn, by simp [hni]⟩
  have hnodesnd : nodes.Nodup := hnd.of_map _
  have hsortednd : s'.sorted.Nodup := hndids.of_map _
  apply List.perm_of_nodup_nodup_toFinset_eq hsortednd hnodesnd
  apply Finset.ext
  intro n
  simp only [List.mem_toFinset]
  constructor
  · intro hn
    exact hels n hn
  · intro hn
    have hid : n.id ∈ s'.sorted.map Node.id :=
      (hmem n.id).mpr (List.mem_map.mpr ⟨n, hn, rfl⟩)
    obtain ⟨m, hm, hmid⟩ := List.mem_map.mp hid
    have : m = n := List.inj_on_of_nodup_map hnd (hels m hm) hn hmid
    exact this ▸ hm

/-- An acyclic edge relation never trips the cycle flag. -/
theorem acyclic_hasCycle_false (nodes : List Node) (edges : List Edge)
    (hacyc : Acyclic edges) : (topologicalSort nodes edges).hasCycle = false := by
  obtain ⟨s', hrun, -, hcyc, -⟩ := topologicalSort_spec nodes edges
  obtain ⟨-, -, -, -, -, -, hsrc⟩ := sortRun_facts _ _ _ _ hrun
  rw [hcyc]
  cases hsc : s'.hasCycle
  · rfl
  · obtain ⟨v, -, hvc⟩ := hsrc hsc
    rw [← edgeRel_eq_step] at hvc
    exact absurd hvc (hacyc v)

/-- `executeWorkflow` on a cyclic graph: terminal error only. -/
theorem executeWorkflow_cycle {V : Type}
    (execNode : Node → List (String × Option V) → Except String V)
    (abortAt : Nat → Bool) (nodes : List Node) (edges : List Edge)
    (h : (topologicalSort nodes edges).hasCycle = true) :
    executeWorkflow execNode abortAt nodes edges =
      ([ExecUpdate.error ("Workflow contains cycles: " ++
          String.intercalate ", " (((topologicalSort nodes edges).cycleNodes).getD []))],
        ⟨false, [], some ("Workflow contains cycles: " ++
          String.intercalate ", " (((topologicalSort nodes edges).cycleNodes).getD []))⟩) := by
  unfold executeWorkflow executeWorkflowWith
  rw [if_pos h]

/-- `executeWorkflow` on an acyclic graph runs the loop over the order. -/
theorem executeWorkflow_run {V : Type}
    (execNode : Node → List (String × Option V) → Except String V)
    (abortAt : Nat → Bool) (nodes : List Node) (edges : List Edge)
    (h : (topologicalSort nodes edges).hasCycle = false) :
    executeWorkflow execNode abortAt nodes edges =
      (match execLoop execNode abortAt nodes edges (topologicalSort nodes edges).sorted 0 [] with
       | (us, Except.ok results) => (us ++ [ExecUpdate.complete], ⟨true, results, none⟩)
       | (us, Except.error msg) => (us ++ [ExecUpdate.error msg], ⟨false, [], some msg⟩)) := by
  unfold executeWorkflow executeWorkflowWith
  rw [if_neg (by simp [h])]

/-- `Map.set` on a fresh key appends the binding. -/
theorem mapSet_fresh {V : Type} (l : List (String × V)) (k : String) (v : V)
    (h : ∀ p ∈ l, p.1 ≠ k) : mapSet l k v = l ++ [(k, v)] := by
  unfold mapSet
  rw [if_neg ?_]
  simp only [List.any_eq_true]
  rintro ⟨p, hp, hpk⟩
  exact h p hp (by simpa using hpk)

/-- The loop on all-succeeding behaviours: paired events in order, ok exit,
keys extended by the processed ids. -/
theorem execLoop_ok {V : Type}
    (execNode : Node → List (String × Option V) → Except String V)
    (allNodes : List Node) (edges : List Edge)
    (hok : ∀ n i, ∃ v, execNode n i = Except.ok v) :
    ∀ (l : List Node) (idx : Nat) (results : List (String × V)),
      (l.map Node.id).Nodup →
      (∀ p ∈ results, ∀ i ∈ l.map Node.id, p.1 ≠ i) →
      ∃ (outs : List V) (res' : List (String × V)),
        execLoop execNode (fun _ => false) allNodes edges l idx results =
          (startCompletePairs (l.map Node.id) outs, Except.ok res') ∧
        outs.length = l.length ∧
        res'.map Prod.fst = results.map Prod.fst ++ l.map Node.id := by
  intro l
  induction l with
  | nil =>
    intro idx results _ _
    exact ⟨[], results, rfl, rfl, by simp⟩
  | cons n rest ih =>
    intro idx results hnd hfresh
    obtain ⟨v, hv⟩ := hok n (getNodeInputs n.id edges results (some allNodes))
    have hset : mapSet results n.id v = results ++ [(n.id, v)] :=
      mapSet_fresh results n.id v (fun p hp => hfresh p hp n.id (by simp))
    have hnd' : (rest.map Node.id).Nodup := (List.nodup_cons.mp (by simpa using hnd)).2
    have hnh : n.id ∉ rest.map Node.id := (List.nodup_cons.mp (by simpa using hnd)).1
    have hfresh' : ∀ p ∈ results ++ [(n.id, v)], ∀ i ∈ rest.map Node.id, p.1 ≠ i := by
      intro p hp i hi
      rcases List.mem_append.mp hp with hp | hp
      · exact hfresh p hp i (List.mem_cons_of_mem _ (by simpa using hi))
      · have hp' : p = (n.id, v) := by simpa using hp
        subst hp'
        intro hni
        have hni' : n.id = i := hni
        rw [← hni'] at hi
        exact hnh hi
    obtain ⟨outs, res', heq, hlen, hkeys⟩ := ih (idx + 1) (results ++ [(n.id, v)]) hnd' hfresh'
    refine ⟨v :: outs, res', ?_, by simp [hlen], ?_⟩
    · simp only [execLoop, if_neg (by decide : ¬(false = true)), hv]
      rw [hset, heq]
      simp [startCompletePairs]
    · rw [hkeys]
      simp

/-- The loop never emits a terminal `error` event itself. -/
theorem execLoop_no_error {V : Type}
    (execNode : Node → List (String × Option V) → Except String V)
    (abortAt : Nat → Bool) (allNodes : List Node) (edges : List Edge) :
    ∀ (l : List Node) (idx : Nat) (results : List (String × V)),
      ∀ u ∈ (execLoop execNode abortAt allNodes edges l idx results).1,
        isErrorUpdate u = false := by
  intro l
  induction l with
  | nil => intro idx results u hu; cases hu
  | cons n rest ih =>
    intro idx results u hu
    rw [execLoop] at hu
    by_cases ha : abortAt idx = true
    · rw [if_pos ha] at hu
      cases hu
    · rw [if_neg ha] at hu
      cases hv : execNode n (getNodeInputs n.id edges results (some allNodes)) with
      | ok v =>
        rw [hv] at hu
        simp only [List.mem_cons] at hu
        rcases hu with hu | hu | hu
        · subst hu; rfl
        · subst hu; rfl
        · exact ih (idx + 1) (mapSet results n.id v) u hu
      | error msg =>
        rw [hv] at hu
        simp only [List.mem_cons] at hu
        rcases hu with hu | hu | hu
        · subst hu; rfl
        · subst hu; rfl
        · cases hu

/-- If the abort flag is (monotonically) set at boundary `j`, the loop fails
and dispatches no node at position `j - idx` or later. -/
theorem execLoop_abort {V : Type}
    (execNode : Node → List (String × Option V) → Except String V)
    (abortAt : Nat → Bool) (allNodes : List Node) (edges : List Edge)
    (hmono : ∀ i j, i ≤ j → abortAt i = true → abortAt j = true)
    (j : Nat) (habort : abortAt j = true) :
    ∀ (l : List Node) (idx : Nat) (results : List (String × V)),
      (l.map Node.id).Nodup → idx ≤ j →
      ((j < idx + l.length →
        ∃ msg, (execLoop execNode abortAt allNodes edges l idx results).2 =
          Except.error msg) ∧
      (∀ m, (hm : m < l.length) → j ≤ idx + m →
        ExecUpdate.node_start ((l.get ⟨m, hm⟩).id) ∉
          (execLoop execNode abortAt allNodes edges l idx results).1)) := by
  intro l
  induction l with
  | nil =>
    intro idx results _ _
    constructor
    · intro hlt
      simp at hlt
      omega
    · intro m hm
      cases hm
  | cons n rest ih =>
    intro idx results hnd hle
    by_cases ha : abortAt idx = true
    · constructor
      · intro _
        refine ⟨"Execution aborted", ?_⟩
        rw [execLoop, if_pos ha]
      · intro m hm hjm
        rw [execLoop, if_pos ha]
        intro hmem
        cases hmem
    · have hij : idx < j := by
        rcases Nat.lt_or_ge idx j with h | h
        · exact h
        · exact absurd (hmono j idx h habort) ha
      have hnd' : (rest.map Node.id).Nodup := (List.nodup_cons.mp (by simpa using hnd)).2
      have hnh : n.id ∉ rest.map Node.id := (List.nodup_cons.mp (by simpa using hnd)).1
      cases hv : execNode n (getNodeInputs n.id edges results (some allNodes)) with
      | ok v =>
        have hihr := ih (idx + 1) (mapSet results n.id v) hnd' (by omega)
        constructor
        · intro hlt
          obtain ⟨msg, hmsg⟩ := hihr.1 (by simp at hlt ⊢; omega)
          refine ⟨msg, ?_⟩
          rw [execLoop, if_neg ha, hv]
          exact hmsg
        · intro m hm hjm
          rw [execLoop, if_neg ha, hv]
          simp only [List.mem_cons]
          rintro (hu | hu | hu)
          · -- a start for node at position m ≥ j - idx ≥ 1 cannot be the head's
            cases m with
            | zero => omega
            | succ m' =>
              have : (rest.get ⟨m', by simpa using hm⟩).id = n.id := by
                injection hu
              exact hnh (this ▸ List.mem_map.mpr ⟨rest.get ⟨m', by simpa using hm⟩,
                rest.get_mem _ _, rfl⟩)
          · cases hu
          · cases m with
            | zero => omega
            | succ m' =>
              exact hihr.2 m' (by simpa using hm) (by omega) hu
      | error msg =>
        constructor
        · intro _
          refine ⟨"Node " ++ n.id ++ " failed: " ++ msg, ?_⟩
          rw [execLoop, if_neg ha, hv]
        · intro m hm hjm
          rw [execLoop, if_neg ha, hv]
          simp only [List.mem_cons]
          rintro (hu | hu | hu)
          · cases m with
            | zero => omega
            | succ m' =>
              have : (rest.get ⟨m', by simpa using hm⟩).id = n.id := by
                injection hu
              exact hnh (this ▸ List.mem_map.mpr ⟨rest.get ⟨m', by simpa using hm⟩,
                rest.get_mem _ _, rfl⟩)
          · cases hu
          · cases hu

/-- Equation of `isUrlSafeWith` on a parse failure. -/
theorem isUrlSafeWith_none (parse : String → Option URLParts) (url : String)
    (h : parse url = none) : isUrlSafeWith parse url = false := by
  unfold isUrlSafeWith
  rw [h]

/-- Equation of `isUrlSafeWith` on a successful parse. -/
theorem isUrlSafeWith_some (parse : String → Option URLParts) (url : String) (p : URLParts)
    (h : parse url = some p) :
    isUrlSafeWith parse url =
      (if (BLOCKED_HOSTS.any fun blocked =>
          strToLower p.hostname == blocked ||
            strStartsWith (strToLower p.hostname) blocked) = true
       then false
       else if (!(["http:", "https:"].contains p.protocol)) = true then false else true) := by
  unfold isUrlSafeWith
  rw [h]

/-! ### Removing unresolved edges (C9) -/

/-- When every edge source is a node id, cleaning the edge list filters each
adjacency entry down to its node-id targets. -/
theorem adjOf_clean (nodes : List Node) (edges : List Edge)
    (hsrc : ∀ e ∈ edges, nodeIdMem nodes e.source = true) (x : String) :
    adjOf (removeUnresolvedEdges nodes edges) x =
      (adjOf edges x).filter (fun b => nodeIdMem nodes b) := by
  unfold adjOf removeUnresolvedEdges
  rw [List.filter_filter, List.map_filter, List.filter_filter]
  apply congrArg (List.map Edge.target)
  apply List.filter_congr'
  intro e he
  have hs : nodes.any (fun n => n.id == e.source) = true := hsrc e he
  simp only [Function.comp, nodeIdMem, hs, Bool.true_and, Bool.and_comm]

/-- When every edge source is a node id, an id that is not a node id has an
empty adjacency entry. -/
theorem adjOf_dangling (nodes : List Node) (edges : List Edge)
    (hsrc : ∀ e ∈ edges, nodeIdMem nodes e.source = true) (b : String)
    (hb : nodeIdMem nodes b = false) : adjOf edges b = [] := by
  unfold adjOf
  have hnil : edges.filter (fun e => e.source == b) = [] := by
    rw [List.filter_eq_nil_iff]
    intro e he hsb
    have heq : e.source = b := by simpa using hsb
    have := hsrc e he
    rw [heq, hb] at this
    cases this
  rw [hnil]
  rfl

/-- A `dfs` call on an id that is not a node id (and not on the stack) only
marks the id visited. -/
theorem dfs_dangling (nodes : List Node) (edges : List Edge)
    (hsrc : ∀ e ∈ edges, nodeIdMem nodes e.source = true) (fuel : Nat) (b : String)
    (hb : nodeIdMem nodes b = false) (s : SortState) (hbs : b ∉ s.recStack) :
    dfsF nodes (adjOf edges) (fuel + 1) b s =
      some (if s.visited.contains b then s
        else { s with visited := b :: s.visited }) := by
  rw [dfsF]
  have h1 : ¬ s.recStack.contains b = true := fun hc => hbs (by simpa using hc)
  rw [if_neg h1]
  by_cases h2 : s.visited.contains b
  · rw [if_pos h2, if_pos h2]
  · rw [if_neg h2, if_neg h2]
    have hfind : nodes.find? (fun n => n.id == b) = none := by
      rw [List.find?_eq_none]
      intro n hn hnb
      have hmem : nodeIdMem nodes b = true := by
        simp only [nodeIdMem, List.any_eq_true]
        exact ⟨n, hn, hnb⟩
      rw [hmem] at hb
      cases hb
    simp only [adjOf_dangling nodes edges hsrc b hb, runList, hfind]
    rw [filter_ne_cons_self hbs]

/-- `sortRun` is monotone in fuel: a result at some fuel persists at any
larger fuel. -/
theorem sortRun_fuel_mono (nodes : List Node) (edges : List Edge)
    (fuel fuel' : Nat) (hle : fuel ≤ fuel') (s' : SortState)
    (h : sortRun fuel nodes edges = some s') : sortRun fuel' nodes edges = some s' := by
  rw [sortRun_unfold] at h ⊢
  have hlift : ∀ x t r, dfsF nodes (adjOf edges) fuel x t = some r →
      dfsF nodes (adjOf edges) fuel' x t = some r :=
    fun x t r hx => dfs_fuel_mono nodes (adjOf edges) fuel fuel' hle x t r hx
  by_cases hcond : ((nodes.filter (fun n =>
      !((edges.map Edge.target).contains n.id))).isEmpty && !nodes.isEmpty) = true
  · rw [if_pos hcond] at h ⊢
    cases nodes with
    | nil => simp at hcond
    | cons n rest =>
      simp only [] at h ⊢
      cases hAE : dfsF (n :: rest) (adjOf edges) fuel n.id ⟨[], [], [], false, []⟩ with
      | none => rw [hAE] at h; cases h
      | some sE =>
        rw [hAE] at h
        rw [hlift _ _ _ hAE]
        exact runRem_lift hlift _ _ _ h
  · rw [if_neg hcond] at h ⊢
    cases hAE : runList (fun b t => dfsF nodes (adjOf edges) fuel b t)
        ((nodes.filter (fun n =>
          !((edges.map Edge.target).contains n.id))).map Node.id)
        ⟨[], [], [], false, []⟩ with
    | none => rw [hAE] at h; cases h
    | some sE =>
      rw [hAE] at h
      rw [runList_lift hlift _ _ _ hAE]
      exact runRem_lift hlift _ _ _ h

/-- Simulation along a neighbour list: the cleaned run walks the node-id
sublist of the full run's list in lock step; dangling steps of the full run
preserve the relation on their own. -/
theorem runList_sim (nodes : List Node)
    {f g : String → SortState → Option SortState}
    (hstep : ∀ x t s s', nodeIdMem nodes x = true → CleanRel nodes t s →
      f x s = some s' → ∃ t', g x t = some t' ∧ CleanRel nodes t' s')
    (hdang : ∀ b t s s', nodeIdMem nodes b = false → CleanRel nodes t s →
      f b s = some s' → CleanRel nodes t s') :
    ∀ l t s s₂, CleanRel nodes t s → runList f l s = some s₂ →
      ∃ t₂, runList g (l.filter (fun b => nodeIdMem nodes b)) t = some t₂ ∧
        CleanRel nodes t₂ s₂ := by
  intro l
  induction l with
  | nil =>
    intro t s s₂ hrel h
    cases h
    exact ⟨t, rfl, hrel⟩
  | cons b bs ih =>
    intro t s s₂ hrel h
    rw [runList] at h
    cases hx : f b s with
    | none => rw [hx] at h; cases h
    | some sm =>
      rw [hx] at h
      rw [List.filter_cons]
      cases hb : nodeIdMem nodes b with
      | true =>
        rw [if_pos rfl]
        obtain ⟨tm, hgt, hrelm⟩ := hstep b t s sm hb hrel hx
        rw [runList, hgt]
        exact ih tm sm s₂ hrelm h
      | false =>
        rw [if_neg (by simp)]
        exact ih t sm s₂ (hdang b t s sm hb hrel hx) h

/-- Simulation of one `dfs` call: a full-edge-list call on a node id is
matched by a cleaned-edge-list call at the same fuel. -/
theorem dfs_sim (nodes : List Node) (edges : List Edge)
    (hsrc : ∀ e ∈ edges, nodeIdMem nodes e.source = true) :
    ∀ fuel x t s s', nodeIdMem nodes x = true → CleanRel nodes t s →
      dfsF nodes (adjOf edges) fuel x s = some s' →
      ∃ t', dfsF nodes (adjOf (removeUnresolvedEdges nodes edges)) fuel x t = some t' ∧
        CleanRel nodes t' s' := by
  intro fuel
  induction fuel with
  | zero => intro x t s s' _ _ h; simp [dfsF] at h
  | succ fuel ih =>
    intro x t s s' hx hrel h
    obtain ⟨hstk, hsort, hcyc, hcycN, hvis, htvN, hsN⟩ := hrel
    rw [dfsF] at h ⊢
    by_cases h1 : s.recStack.contains x
    · rw [if_pos h1] at h
      rw [if_pos (by rw [hstk]; exact h1)]
      cases h
      exact ⟨_, rfl, hstk, hsort, rfl, by rw [hcycN], hvis, htvN, hsN⟩
    · rw [if_neg h1] at h
      rw [if_neg (by rw [hstk]; exact h1)]
      by_cases h2 : s.visited.contains x
      · rw [if_pos h2] at h
        have h2' : t.visited.contains x := by
          have := (hvis x hx).mpr (by simpa using h2)
          simpa using this
        rw [if_pos h2']
        cases h
        exact ⟨t, rfl, hstk, hsort, hcyc, hcycN, hvis, htvN, hsN⟩
      · rw [if_neg h2] at h
        have h2' : ¬ t.visited.contains x := by
          intro hc
          exact h2 (by simpa using (hvis x hx).mp (by simpa using hc))
        rw [if_neg h2']
        simp only [] at h ⊢
        have hrel1 : CleanRel nodes
            { t with visited := x :: t.visited, recStack := x :: t.recStack }
            { s with visited := x :: s.visited, recStack := x :: s.recStack } := by
          refine ⟨by rw [hstk], hsort, hcyc, hcycN, ?_, ?_, ?_⟩
          · intro i hi
            simp only [List.mem_cons]
            exact or_congr Iff.rfl (hvis i hi)
          · intro i hi
            rcases List.mem_cons.mp hi with hi | hi
            · subst hi; exact hx
            · exact htvN i hi
          · intro i hi
            rcases List.mem_cons.mp hi with hi | hi
            · subst hi; exact hx
            · exact hsN i hi
        have hdang : ∀ b t' s'' s''', nodeIdMem nodes b = false →
            CleanRel nodes t' s'' →
            dfsF nodes (adjOf edges) fuel b s'' = some s''' →
            CleanRel nodes t' s''' := by
          intro b t' s'' s''' hb hr hf
          cases fuel with
          | zero => simp [dfsF] at hf
          | succ fuel' =>
            obtain ⟨kstk, ksort, kcyc, kcycN, kvis, ktvN, ksN⟩ := hr
            have hbs : b ∉ s''.recStack := by
              intro hc
              rw [ksN b hc] at hb
              cases hb
            rw [dfs_dangling nodes edges hsrc fuel' b hb s'' hbs] at hf
            cases hf
            by_cases hbv : s''.visited.contains b
            · rw [if_pos hbv]
              exact ⟨kstk, ksort, kcyc, kcycN, kvis, ktvN, ksN⟩
            · rw [if_neg hbv]
              refine ⟨kstk, ksort, kcyc, kcycN, ?_, ktvN, ksN⟩
              intro i hi
              rw [kvis i hi]
              simp only [List.mem_cons]
              constructor
              · exact Or.inr
              · rintro (hib | hib)
                · subst hib; rw [hi] at hb; cases hb
                · exact hib
        cases hrl : runList (fun b t => dfsF nodes (adjOf edges) fuel b t) (adjOf edges x)
            { s with visited := x :: s.visited, recStack := x :: s.recStack } with
        | none => rw [hrl] at h; cases h
        | some s2 =>
          rw [hrl] at h
          obtain ⟨t2, hrl', hrel2⟩ := runList_sim nodes
            (fun y u v v' hy hr hf => ih y u v v' hy hr hf) hdang (adjOf edges x)
            { t with visited := x :: t.visited, recStack := x :: t.recStack }
            { s with visited := x :: s.visited, recStack := x :: s.recStack } s2 hrel1 hrl
          rw [adjOf_clean nodes edges hsrc x, hrl']
          obtain ⟨kstk, ksort, kcyc, kcycN, kvis, ktvN, ksN⟩ := hrel2
          cases hfind : nodes.find? (fun n => n.id == x) with
          | some node =>
            rw [hfind] at h
            cases h
            refine ⟨_, rfl, by rw [kstk], by rw [ksort], kcyc, kcycN, kvis, ktvN, ?_⟩
            intro i hi
            exact ksN i (List.mem_of_mem_filter hi)
          | none =>
            rw [hfind] at h
            cases h
            refine ⟨_, rfl, by rw [kstk], ksort, kcyc, kcycN, kvis, ktvN, ?_⟩
            intro i hi
            exact ksN i (List.mem_of_mem_filter hi)

/-- Simulation along the trailing unvisited-nodes loop. -/
theorem runRem_sim (nodes : List Node)
    {f g : String → SortState → Option SortState}
    (hstep : ∀ x t s s', nodeIdMem nodes x = true → CleanRel nodes t s →
      f x s = some s' → ∃ t', g x t = some t' ∧ CleanRel nodes t' s') :
    ∀ l t s s₂, (∀ n ∈ l, nodeIdMem nodes n.id = true) → CleanRel nodes t s →
      runRem f l s = some s₂ →
      ∃ t₂, runRem g l t = some t₂ ∧ CleanRel nodes t₂ s₂ := by
  intro l
  induction l with
  | nil =>
    intro t s s₂ _ hrel h
    cases h
    exact ⟨t, rfl, hrel⟩
  | cons n ns ih =>
    intro t s s₂ hl hrel h
    have hn : nodeIdMem nodes n.id = true := hl n (List.mem_cons_self n ns)
    rw [runRem] at h ⊢
    by_cases hv : s.visited.contains n.id
    · rw [if_pos hv] at h
      have hv' : t.visited.contains n.id := by
        have := (hrel.2.2.2.2.1 n.id hn).mpr (by simpa using hv)
        simpa using this
      rw [if_pos hv']
      exact ih t s s₂ (fun m hm => hl m (List.mem_cons_of_mem _ hm)) hrel h
    · rw [if_neg hv] at h
      have hv' : ¬ t.visited.contains n.id := by
        intro hc
        exact hv (by simpa using (hrel.2.2.2.2.1 n.id hn).mp (by simpa using hc))
      rw [if_neg hv']
      cases hx : f n.id s with
      | none => rw [hx] at h; cases h
      | some sm =>
        rw [hx] at h
        obtain ⟨tm, hgt, hrelm⟩ := hstep n.id t s sm hn hrel hx
        rw [hgt]
        exact ih tm sm s₂ (fun m hm => hl m (List.mem_cons_of_mem _ hm)) hrelm h

/-- A full-run `dfs` call on a dangling id preserves the simulation relation
without any step of the cleaned run. -/
theorem dfs_dangling_rel (nodes : List Node) (edges : List Edge)
    (hsrc : ∀ e ∈ edges, nodeIdMem nodes e.source = true) (fuel : Nat) :
    ∀ b t s s', nodeIdMem nodes b = false → CleanRel nodes t s →
      dfsF nodes (adjOf edges) fuel b s = some s' → CleanRel nodes t s' := by
  intro b t s s' hb hr hf
  cases fuel with
  | zero => simp [dfsF] at hf
  | succ fuel' =>
    obtain ⟨kstk, ksort, kcyc, kcycN, kvis, ktvN, ksN⟩ := hr
    have hbs : b ∉ s.recStack := fun hc => by rw [ksN b hc] at hb; cases hb
    rw [dfs_dangling nodes edges hsrc fuel' b hb s hbs] at hf
    cases hf
    by_cases hbv : s.visited.contains b
    · rw [if_pos hbv]
      exact ⟨kstk, ksort, kcyc, kcycN, kvis, ktvN, ksN⟩
    · rw [if_neg hbv]
      refine ⟨kstk, ksort, kcyc, kcycN, ?_, ktvN, ksN⟩
      intro i hi
      rw [kvis i hi]
      simp only [List.mem_cons]
      constructor
      · exact Or.inr
      · rintro (hib | hib)
        · subst hib; rw [hi] at hb; cases hb
        · exact hib

/-- Simulation of the whole traversal: a full-edge-list `sortRun` is matched
by a cleaned-edge-list `sortRun` at the same fuel. -/
theorem sortRun_sim (nodes : List Node) (edges : List Edge)
    (hsrc : ∀ e ∈ edges, nodeIdMem nodes e.source = true) (fuel : Nat) (s' : SortState)
    (h : sortRun fuel nodes edges = some s') :
    ∃ t', sortRun fuel nodes (removeUnresolvedEdges nodes edges) = some t' ∧
      CleanRel nodes t' s' := by
  have hrel0 : CleanRel nodes ⟨[], [], [], false, []⟩ ⟨[], [], [], false, []⟩ :=
    ⟨rfl, rfl, rfl, rfl, fun i _ => Iff.rfl, fun i hi => absurd hi (by intro hc; cases hc),
      fun i hi => absurd hi (by intro hc; cases hc)⟩
  have hstep : ∀ x t s s₁, nodeIdMem nodes x = true → CleanRel nodes t s →
      dfsF nodes (adjOf edges) fuel x s = some s₁ →
      ∃ t₁, dfsF nodes (adjOf (removeUnresolvedEdges nodes edges)) fuel x t = some t₁ ∧
        CleanRel nodes t₁ s₁ :=
    fun x t s s₁ => dfs_sim nodes edges hsrc fuel x t s s₁
  have htgtmem : ∀ i, nodeIdMem nodes i = true →
      ((removeUnresolvedEdges nodes edges).map Edge.target).contains i =
        (edges.map Edge.target).contains i := by
    intro i hi
    cases hc : (edges.map Edge.target).contains i with
    | true =>
      have hmem : i ∈ edges.map Edge.target := by simpa using hc
      obtain ⟨e, he, het⟩ := List.mem_map.mp hmem
      have hP : (nodes.any (fun n => n.id == e.source) &&
          nodes.any (fun n => n.id == e.target)) = true := by
        have hs2 : (nodes.any fun n => n.id == e.source) = true := hsrc e he
        have htgt : (nodes.any fun n => n.id == e.target) = true := by rw [het]; exact hi
        rw [hs2, htgt]
        rfl
      have : i ∈ (removeUnresolvedEdges nodes edges).map Edge.target :=
        List.mem_map.mpr ⟨e, List.mem_filter.mpr ⟨he, hP⟩, het⟩
      exact List.elem_iff.mpr this
    | false =>
      have hmem : i ∉ edges.map Edge.target := by simpa using hc
      have hnot : i ∉ (removeUnresolvedEdges nodes edges).map Edge.target := by
        intro hcmem
        obtain ⟨e, he, het⟩ := List.mem_map.mp hcmem
        exact hmem (List.mem_map.mpr ⟨e, List.mem_of_mem_filter he, het⟩)
      cases hcc : ((removeUnresolvedEdges nodes edges).map Edge.target).contains i with
      | false => rfl
      | true => exact absurd (List.elem_iff.mp hcc) hnot
  have hentry : nodes.filter (fun n =>
        !(((removeUnresolvedEdges nodes edges).map Edge.target).contains n.id)) =
      nodes.filter (fun n => !((edges.map Edge.target).contains n.id)) := by
    apply List.filter_congr'
    intro n hn
    have hid : nodeIdMem nodes n.id = true := by
      simp only [nodeIdMem, List.any_eq_true]
      exact ⟨n, hn, by simp⟩
    rw [htgtmem n.id hid]
  rw [sortRun_unfold] at h ⊢
  rw [hentry]
  by_cases hcond : ((nodes.filter (fun n =>
      !((edges.map Edge.target).contains n.id))).isEmpty && !nodes.isEmpty) = true
  · rw [if_pos hcond] at h ⊢
    cases nodes with
    | nil => simp at hcond
    | cons n rest =>
      simp only [] at h ⊢
      cases hd : dfsF (n :: rest) (adjOf edges) fuel n.id ⟨[], [], [], false, []⟩ with
      | none => rw [hd] at h; cases h
      | some sE =>
        rw [hd] at h
        have hnid : nodeIdMem (n :: rest) n.id = true := by
          simp only [nodeIdMem, List.any_eq_true]
          exact ⟨n, List.mem_cons_self n rest, by simp⟩
        obtain ⟨tE, htE, hrelE⟩ := hstep n.id _ _ sE hnid hrel0 hd
        rw [htE]
        obtain ⟨t₂, ht₂, hrel₂⟩ := runRem_sim (n :: rest) hstep (n :: rest) tE sE s'
          (fun m hm => by
            simp only [nodeIdMem, List.any_eq_true]
            exact ⟨m, hm, by simp⟩) hrelE h
        exact ⟨t₂, ht₂, hrel₂⟩
  · rw [if_neg hcond] at h ⊢
    cases hAE : runList (fun b t => dfsF nodes (adjOf edges) fuel b t)
        ((nodes.filter (fun n => !((edges.map Edge.target).contains n.id))).map Node.id)
        ⟨[], [], [], false, []⟩ with
    | none => rw [hAE] at h; cases h
    | some sE =>
      rw [hAE] at h
      have hallids : ∀ b ∈ (nodes.filter (fun n =>
          !((edges.map Edge.target).contains n.id))).map Node.id,
          nodeIdMem nodes b = true := by
        intro b hb
        obtain ⟨m, hm, hmb⟩ := List.mem_map.mp hb
        subst hmb
        simp only [nodeIdMem, List.any_eq_true]
        exact ⟨m, List.mem_of_mem_filter hm, by simp⟩
      obtain ⟨tE, htE, hrelE⟩ := runList_sim nodes hstep
        (dfs_dangling_rel nodes edges hsrc fuel) _ _ _ sE hrel0 hAE
      rw [List.filter_eq_self.mpr hallids] at htE
      rw [htE]
      obtain ⟨t₂, ht₂, hrel₂⟩ := runRem_sim nodes hstep nodes tE sE s'
        (fun m hm => by
          simp only [nodeIdMem, List.any_eq_true]
          exact ⟨m, hm, by simp⟩) hrelE h
      exact ⟨t₂, ht₂, hrel₂⟩

/-- When every edge source resolves to a node, removing the edges with an
unresolved endpoint does not change `topologicalSort`'s result at all. -/
theorem topologicalSort_clean (nodes : List Node) (edges : List Edge)
    (hsrc : ∀ e ∈ edges, nodeIdMem nodes e.source = true) :
    topologicalSort nodes (removeUnresolvedEdges nodes edges) =
      topologicalSort nodes edges := by
  obtain ⟨s', hs'⟩ := sortRun_total nodes edges
  obtain ⟨t'', ht''⟩ := sortRun_total nodes (removeUnresolvedEdges nodes edges)
  have hsF : sortRun (max (sortFuel nodes edges)
      (sortFuel nodes (removeUnresolvedEdges nodes edges))) nodes edges = some s' :=
    sortRun_fuel_mono nodes edges _ _ (Nat.le_max_left _ _) s' hs'
  obtain ⟨t', htF, hrel⟩ := sortRun_sim nodes edges hsrc _ s' hsF
  have htF' : sortRun (max (sortFuel nodes edges)
      (sortFuel nodes (removeUnresolvedEdges nodes edges))) nodes
      (removeUnresolvedEdges nodes edges) = some t'' :=
    sortRun_fuel_mono nodes (removeUnresolvedEdges nodes edges) _ _
      (Nat.le_max_right _ _) t'' ht''
  rw [htF] at htF'
  cases htF'
  obtain ⟨hstk, hsort, hcyc, hcycN, -, -, -⟩ := hrel
  unfold topologicalSort topologicalSortF
  rw [hs', ht'']
  simp only [Option.map_some', Option.getD_some]
  rw [hsort, hcyc, hcycN]

/-- When every edge source resolves to a node, removing the edges with an
unresolved endpoint does not change any node's `getNodeInputs`. -/
theorem getNodeInputs_clean {V : Type} (nodes : List Node) (edges : List Edge)
    (hsrc : ∀ e ∈ edges, nodeIdMem nodes e.source = true) (n : Node) (hn : n ∈ nodes)
    (results : List (String × V)) (nodesOpt : Option (List Node)) :
    getNodeInputs n.id (removeUnresolvedEdges nodes edges) results nodesOpt =
      getNodeInputs n.id edges results nodesOpt := by
  have hfil : (removeUnresolvedEdges nodes edges).filter (fun e => e.target == n.id) =
      edges.filter (fun e => e.target == n.id) := by
    unfold removeUnresolvedEdges
    rw [List.filter_filter]
    apply List.filter_congr'
    intro e he
    by_cases ht : (e.target == n.id) = true
    · have heq : e.target = n.id := by simpa using ht
      have htgt : nodes.any (fun m => m.id == e.target) = true := by
        rw [List.any_eq_true]
        exact ⟨n, hn, by simp [heq]⟩
      have hs2 : (nodes.any fun n => n.id == e.source) = true := hsrc e he
      rw [ht, hs2, htgt]
      rfl
    · have ht' : (e.target == n.id) = false := by simpa using ht
      rw [ht']
      rfl
  unfold getNodeInputs
  rw [hfil]

/-- C1: for every acyclic input graph with unique node ids, and every edge
`(u,v)` whose endpoints both appear in the node list, `topologicalSort`
places `u` strictly before `v` in the returned sorted sequence. -/
theorem claim_C1_topologicalSort_order (nodes : List Node) (edges : List Edge)
    (hnd : (nodes.map Node.id).Nodup) (hacyc : Acyclic edges)
    (e : Edge) (he : e ∈ edges)
    (hu : e.source ∈ nodes.map Node.id) (hv : e.target ∈ nodes.map Node.id) :
    ∃ l₁ l₂ l₃, (topologicalSort nodes edges).sorted.map Node.id =
      l₁ ++ e.source :: l₂ ++ e.target :: l₃ := by
  obtain ⟨s', hrun, hsorted, hcyc, hcns⟩ := topologicalSort_spec nodes edges
  obtain ⟨hrsv, hsinv, htinv, hstk, hcover, hcycEq, hsrc⟩ := sortRun_facts _ _ _ _ hrun
  have hf : s'.hasCycle = false := by
    cases hsc : s'.hasCycle
    · rfl
    · obtain ⟨v, -, hvc⟩ := hsrc hsc
      rw [← edgeRel_eq_step] at hvc
      exact absurd hvc (hacyc v)
  obtain ⟨L, hLnd, hLiff, hLadj, hLsort⟩ := htinv hf
  have huL : e.source ∈ L := by
    apply (hLiff e.source).mpr
    refine ⟨?_, ?_⟩
    · obtain ⟨m, hm, hmid⟩ := List.mem_map.mp hu
      exact hmid ▸ hcover m hm
    · rw [hstk]
      intro hc
      cases hc
  have hvadj : e.target ∈ adjOf edges e.source := by
    simp only [adjOf, List.mem_map]
    exact ⟨e, List.mem_filter.mpr ⟨he, by simp⟩, rfl⟩
  have hsubL : [e.source, e.target].Sublist L := hLadj _ _ huL hvadj
  have hpu : nodeIdMem nodes e.source = true := by
    simp only [nodeIdMem, List.any_eq_true]
    obtain ⟨m, hm, hmid⟩ := List.mem_map.mp hu
    exact ⟨m, hm, by simp [hmid]⟩
  have hpv : nodeIdMem nodes e.target = true := by
    simp only [nodeIdMem, List.any_eq_true]
    obtain ⟨m, hm, hmid⟩ := List.mem_map.mp hv
    exact ⟨m, hm, by simp [hmid]⟩
  have hsubF : [e.source, e.target].Sublist (L.filter (fun i => nodeIdMem nodes i)) := by
    have := hsubL.filter (fun i => nodeIdMem nodes i)
    have heq : [e.source, e.target].filter (fun i => nodeIdMem nodes i) =
        [e.source, e.target] := by
      simp [List.filter_cons, hpu, hpv]
    rw [heq] at this
    exact this
  rw [hsorted, hLsort]
  exact sublist_pair_decomp hsubF

/-- C1 witness: on the concrete acyclic graph `A → B` the source of the edge
comes strictly before its target. -/
theorem claim_C1_witness :
    ∃ l₁ l₂ l₃,
      (topologicalSort [⟨"A", "t", {}, {}⟩, ⟨"B", "t", {}, {}⟩]
        [⟨"e", "A", "B"⟩]).sorted.map Node.id = l₁ ++ "A" :: l₂ ++ "B" :: l₃ := by
  have hstep : ∀ a b, EdgeRel [⟨"e", "A", "B"⟩] a b → a = "A" ∧ b = "B" := by
    rintro a b ⟨e, he, hs, ht⟩
    have : e = ⟨"e", "A", "B"⟩ := by simpa using he
    subst this
    exact ⟨hs.symm, ht.symm⟩
  have hsrcA : ∀ v w, Relation.TransGen (EdgeRel [⟨"e", "A", "B"⟩]) v w → v = "A" := by
    intro v w h
    induction h with
    | single h1 => exact (hstep _ _ h1).1
    | tail h1 h2 ih => exact ih
  have htgtB : ∀ v w, Relation.TransGen (EdgeRel [⟨"e", "A", "B"⟩]) v w → w = "B" := by
    intro v w h
    induction h with
    | single h1 => exact (hstep _ _ h1).2
    | tail h1 h2 ih => exact (hstep _ _ h2).2
  have hacyc : Acyclic [⟨"e", "A", "B"⟩] := by
    intro v hv
    have h1 := hsrcA v v hv
    have h2 := htgtB v v hv
    rw [h1] at h2
    exact absurd h2 (by decide)
  exact claim_C1_topologicalSort_order
    [⟨"A", "t", {}, {}⟩, ⟨"B", "t", {}, {}⟩] [⟨"e", "A", "B"⟩]
    (by decide) hacyc ⟨"e", "A", "B"⟩ (by decide) (by decide) (by decide)

/-- C2: `topologicalSort` reports `hasCycle = true` exactly when the graph
has a directed cycle reachable via the traversal rule, `cycleNodes` is a
non-empty list exactly when `hasCycle` is true, and is absent otherwise. -/
theorem claim_C2_hasCycle_iff (nodes : List Node) (edges : List Edge) :
    ((topologicalSort nodes edges).hasCycle = true ↔ HasReachableCycle nodes edges) ∧
    ((topologicalSort nodes edges).hasCycle = true →
      ∃ l, (topologicalSort nodes edges).cycleNodes = some l ∧ l ≠ []) ∧
    ((topologicalSort nodes edges).hasCycle = false →
      (topologicalSort nodes edges).cycleNodes = none) := by
  obtain ⟨s', hrun, hsorted, hcyc, hcns⟩ := topologicalSort_spec nodes edges
  obtain ⟨hrsv, hsinv, htinv, hstk, hcover, hcycEq, hsrc⟩ := sortRun_facts _ _ _ _ hrun
  refine ⟨⟨?_, ?_⟩, ?_, ?_⟩
  · intro hc
    rw [hcyc] at hc
    exact (hasReachableCycle_iff nodes edges).mpr (hsrc hc)
  · intro hrc
    rw [hcyc]
    by_contra hfalse
    have hf : s'.hasCycle = false := by
      cases hsc : s'.hasCycle
      · rfl
      · exact absurd hsc hfalse
    obtain ⟨L, hLnd, hLiff, hLadj, hLsort⟩ := htinv hf
    obtain ⟨hclosed, hnocyc⟩ := ordered_no_cycle (adjOf edges) L hLnd hLadj
    obtain ⟨v, ⟨n, hn, hreach⟩, hvc⟩ := (hasReachableCycle_iff nodes edges).mp hrc
    have hnL : n ∈ L := by
      apply (hLiff n).mpr
      refine ⟨?_, ?_⟩
      · obtain ⟨m, hm, hmid⟩ := List.mem_map.mp hn
        exact hmid ▸ hcover m hm
      · rw [hstk]
        intro hc
        cases hc
    exact hnocyc v (hclosed n v hreach hnL) hvc
  · intro hc
    rw [hcyc] at hc
    rw [hcns, if_pos hc]
    refine ⟨firstDedup s'.cycleNodes, rfl, ?_⟩
    apply firstDedup_ne_nil
    intro hnil
    rw [hcycEq, hnil] at hc
    simp at hc
  · intro hc
    rw [hcyc] at hc
    rw [hcns, if_neg (by simp [hc])]

/-- C2 witness: the self-loop graph is reported cyclic, so it contains a
reachable directed cycle, with a non-empty `cycleNodes`. -/
theorem claim_C2_witness :
    HasReachableCycle [⟨"A", "t", {}, {}⟩] [⟨"e", "A", "A"⟩] ∧
    (∃ l, (topologicalSort [⟨"A", "t", {}, {}⟩]
      [⟨"e", "A", "A"⟩]).cycleNodes = some l ∧ l ≠ []) := by
  constructor
  · exact (claim_C2_hasCycle_iff [⟨"A", "t", {}, {}⟩] [⟨"e", "A", "A"⟩]).1.mp (by decide)
  · exact (claim_C2_hasCycle_iff [⟨"A", "t", {}, {}⟩] [⟨"e", "A", "A"⟩]).2.1 (by decide)

/-- C10: for unique node ids, the sorted sequence is a permutation of the
node list, even when a cycle is present. -/
theorem claim_C10_sorted_perm (nodes : List Node) (edges : List Edge)
    (hnd : (nodes.map Node.id).Nodup) :
    (topologicalSort nodes edges).sorted.Perm nodes := by
  obtain ⟨s', hrun, hsorted, -, -⟩ := topologicalSort_spec nodes edges
  obtain ⟨hrsv, hsinv, htinv, hstk, hcover, hcycEq, hsrc⟩ := sortRun_facts _ _ _ _ hrun
  rw [hsorted]
  have hiff := hsinv.1
  have hndids := hsinv.2.1
  have hels := hsinv.2.2
  have hmem : ∀ i, i ∈ s'.sorted.map Node.id ↔ i ∈ nodes.map Node.id := by
    intro i
    rw [hiff i]
    constructor
    · rintro ⟨-, -, hm⟩
      simp only [nodeIdMem, List.any_eq_true] at hm
      obtain ⟨n, hn, hni⟩ := hm
      exact List.mem_map.mpr ⟨n, hn, by simpa using hni⟩
    · intro hi
      obtain ⟨n, hn, hni⟩ := List.mem_map.mp hi
      refine ⟨hni ▸ hcover n hn, ?_, ?_⟩
      · rw [hstk]
        intro hc
        cases hc
      · simp only [nodeIdMem, List.any_eq_true]
        exact ⟨n, hn, by simp [hni]⟩
  have hnodesnd : nodes.Nodup := hnd.of_map _
  have hsortednd : s'.sorted.Nodup := hndids.of_map _
  apply List.perm_of_nodup_nodup_toFinset_eq hsortednd hnodesnd
  apply Finset.ext
  intro n
  simp only [List.mem_toFinset]
  constructor
  · intro hn
    exact hels n hn
  · intro hn
    have hid : n.id ∈ s'.sorted.map Node.id :=
      (hmem n.id).mpr (List.mem_map.mpr ⟨n, hn, rfl⟩)
    obtain ⟨m, hm, hmid⟩ := List.mem_map.mp hid
    have : m = n := List.inj_on_of_nodup_map hnd (hels m hm) hn hmid
    exact this ▸ hm

/-- The concrete single-edge graph `A → B` is acyclic. -/
theorem acyclic_single_AB : Acyclic [⟨"e", "A", "B"⟩] := by
  have hstep : ∀ a b, EdgeRel [⟨"e", "A", "B"⟩] a b → a = "A" ∧ b = "B" := by
    rintro a b ⟨e, he, hs, ht⟩
    have : e = ⟨"e", "A", "B"⟩ := by simpa using he
    subst this
    exact ⟨hs.symm, ht.symm⟩
  have htg : ∀ a b, Relation.TransGen (EdgeRel [⟨"e", "A", "B"⟩]) a b →
      a = "A" ∧ b = "B" := by
    intro a b hab
    induction hab with
    | single h1 => exact hstep _ _ h1
    | tail h1 h2 ih => exact ⟨ih.1, (hstep _ _ h2).2⟩
  intro v hv
  have hv' := htg v v hv
  exact absurd (hv'.1.symm.trans hv'.2) (by decide)

/-- C3: on an acyclic graph with unique ids and all-succeeding behaviours,
the engine emits a `(node_start, node_complete)` pair per node in the
topological order followed by one `complete`, succeeds, and records exactly
one result per node id. -/
theorem claim_C3_happy_path {V : Type}
    (execNode : Node → List (String × Option V) → Except String V)
    (nodes : List Node) (edges : List Edge)
    (hnd : (nodes.map Node.id).Nodup) (hacyc : Acyclic edges)
    (hok : ∀ n i, ∃ v, execNode n i = Except.ok v) :
    ∃ outs : List V,
      (executeWorkflow execNode (fun _ => false) nodes edges).1 =
        startCompletePairs ((topologicalSort nodes edges).sorted.map Node.id) outs ++
          [ExecUpdate.complete] ∧
      outs.length = nodes.length ∧
      (executeWorkflow execNode (fun _ => false) nodes edges).2.success = true ∧
      (executeWorkflow execNode (fun _ => false) nodes edges).2.results.map Prod.fst =
        (topologicalSort nodes edges).sorted.map Node.id ∧
      ((topologicalSort nodes edges).sorted.map Node.id).Perm (nodes.map Node.id) := by
  have hnc := acyclic_hasCycle_false nodes edges hacyc
  have hperm : (topologicalSort nodes edges).sorted.Perm nodes :=
    topologicalSort_perm nodes edges hnd
  have hpermids := hperm.map Node.id
  have hndids : ((topologicalSort nodes edges).sorted.map Node.id).Nodup :=
    hpermids.nodup_iff.mpr hnd
  obtain ⟨outs, res', heq, hlen, hkeys⟩ := execLoop_ok execNode nodes edges hok
    (topologicalSort nodes edges).sorted 0 [] hndids (by intro p hp; cases hp)
  rw [executeWorkflow_run execNode (fun _ => false) nodes edges hnc, heq]
  refine ⟨outs, rfl, ?_, rfl, ?_, hpermids⟩
  · rw [hlen]
    exact hperm.length_eq
  · simpa using hkeys

/-- C3 witness: a concrete two-node chain runs to success with the paired
trace. -/
theorem claim_C3_witness :
    ∃ outs : List String,
      (executeWorkflow (V := String) (fun n _ => Except.ok n.id) (fun _ => false)
        [⟨"A", "t", {}, {}⟩, ⟨"B", "t", {}, {}⟩] [⟨"e", "A", "B"⟩]).1 =
        startCompletePairs ((topologicalSort [⟨"A", "t", {}, {}⟩, ⟨"B", "t", {}, {}⟩]
          [⟨"e", "A", "B"⟩]).sorted.map Node.id) outs ++ [ExecUpdate.complete] ∧
      outs.length = 2 ∧
      (executeWorkflow (V := String) (fun n _ => Except.ok n.id) (fun _ => false)
        [⟨"A", "t", {}, {}⟩, ⟨"B", "t", {}, {}⟩] [⟨"e", "A", "B"⟩]).2.success = true := by
  obtain ⟨outs, h1, h2, h3, -, -⟩ := claim_C3_happy_path
    (V := String) (fun n _ => Except.ok n.id)
    [⟨"A", "t", {}, {}⟩, ⟨"B", "t", {}, {}⟩] [⟨"e", "A", "B"⟩]
    (by decide) acyclic_single_AB (fun n i => ⟨n.id, rfl⟩)
  exact ⟨outs, h1, h2, h3⟩

/-- C4: every failure exit returns `{success:false, results:{}, error}` with
exactly one terminal `error` event; on the two-node cycle the run fails with
a message naming a cycle member and no `node_start` is emitted. -/
theorem claim_C4_failure_shape :
    (∀ (V : Type) (execNode : Node → List (String × Option V) → Except String V)
      (abortAt : Nat → Bool) (nodes : List Node) (edges : List Edge),
      (executeWorkflow execNode abortAt nodes edges).2.success = false →
        (executeWorkflow execNode abortAt nodes edges).2.results = [] ∧
        ∃ (msg : String) (us' : List (ExecUpdate V)),
          (executeWorkflow execNode abortAt nodes edges).2.error = some msg ∧
          (executeWorkflow execNode abortAt nodes edges).1 = us' ++ [ExecUpdate.error msg] ∧
          ∀ u ∈ us', isErrorUpdate u = false) ∧
    (executeWorkflow (V := Unit) (fun _ _ => Except.ok ()) (fun _ => false)
        [⟨"A", "t", {}, {}⟩, ⟨"B", "t", {}, {}⟩]
        [⟨"e1", "A", "B"⟩, ⟨"e2", "B", "A"⟩] =
      ([ExecUpdate.error "Workflow contains cycles: A"],
        ⟨false, [], some "Workflow contains cycles: A"⟩)) ∧
    (topologicalSort [⟨"A", "t", {}, {}⟩, ⟨"B", "t", {}, {}⟩]
        [⟨"e1", "A", "B"⟩, ⟨"e2", "B", "A"⟩]).cycleNodes = some ["A"] := by
  refine ⟨?_, by decide, by decide⟩
  intro V execNode abortAt nodes edges hs
  cases hc : (topologicalSort nodes edges).hasCycle with
  | true =>
    rw [executeWorkflow_cycle execNode abortAt nodes edges hc]
    refine ⟨rfl, _, [], rfl, rfl, ?_⟩
    intro u hu
    cases hu
  | false =>
    rw [executeWorkflow_run execNode abortAt nodes edges hc] at hs ⊢
    have hnerr := execLoop_no_error execNode abortAt nodes edges
      (topologicalSort nodes edges).sorted 0 []
    rcases hEL : execLoop execNode abortAt nodes edges
        (topologicalSort nodes edges).sorted 0 [] with ⟨us, r⟩
    rw [hEL] at hnerr hs
    cases r with
    | ok results => exact Bool.noConfusion hs
    | error msg =>
      refine ⟨rfl, msg, us, rfl, rfl, ?_⟩
      intro u hu
      exact hnerr u (by simpa using hu)

/-- C4 witness: the general failure shape applied to the concrete cyclic
run. -/
theorem claim_C4_witness :
    (executeWorkflow (V := Unit) (fun _ _ => Except.ok ()) (fun _ => false)
      [⟨"A", "t", {}, {}⟩, ⟨"B", "t", {}, {}⟩]
      [⟨"e1", "A", "B"⟩, ⟨"e2", "B", "A"⟩]).2.results = [] ∧
    ∃ msg us', (executeWorkflow (V := Unit) (fun _ _ => Except.ok ()) (fun _ => false)
      [⟨"A", "t", {}, {}⟩, ⟨"B", "t", {}, {}⟩]
      [⟨"e1", "A", "B"⟩, ⟨"e2", "B", "A"⟩]).2.error = some msg ∧
      (executeWorkflow (V := Unit) (fun _ _ => Except.ok ()) (fun _ => false)
        [⟨"A", "t", {}, {}⟩, ⟨"B", "t", {}, {}⟩]
        [⟨"e1", "A", "B"⟩, ⟨"e2", "B", "A"⟩]).1 = us' ++ [ExecUpdate.error msg] ∧
      ∀ u ∈ us', isErrorUpdate u = false :=
  claim_C4_failure_shape.1 Unit (fun _ _ => Except.ok ()) (fun _ => false)
    [⟨"A", "t", {}, {}⟩, ⟨"B", "t", {}, {}⟩]
    [⟨"e1", "A", "B"⟩, ⟨"e2", "B", "A"⟩] (by decide)

/-- C5: if the (monotone) abort flag is set before the `k`-th node of the
execution order is dispatched, the run fails and emits no `node_start` for
that node or any later one. -/
theorem claim_C5_abort {V : Type}
    (execNode : Node → List (String × Option V) → Except String V)
    (abortAt : Nat → Bool) (nodes : List Node) (edges : List Edge)
    (hnd : (nodes.map Node.id).Nodup)
    (hmono : ∀ i j, i ≤ j → abortAt i = true → abortAt j = true)
    (k : Nat) (hk : 1 ≤ k)
    (hklen : k - 1 < (topologicalSort nodes edges).sorted.length)
    (habort : abortAt (k - 1) = true) :
    (executeWorkflow execNode abortAt nodes edges).2.success = false ∧
    ∀ i, k - 1 ≤ i → ∀ (hi : i < (topologicalSort nodes edges).sorted.length),
      ExecUpdate.node_start (((topologicalSort nodes edges).sorted.get ⟨i, hi⟩).id) ∉
        (executeWorkflow execNode abortAt nodes edges).1 := by
  cases hc : (topologicalSort nodes edges).hasCycle with
  | true =>
    rw [executeWorkflow_cycle execNode abortAt nodes edges hc]
    refine ⟨rfl, ?_⟩
    intro i hik hi hmem
    simp at hmem
  | false =>
    have hperm : (topologicalSort nodes edges).sorted.Perm nodes :=
      topologicalSort_perm nodes edges hnd
    have hndids : ((topologicalSort nodes edges).sorted.map Node.id).Nodup :=
      (hperm.map Node.id).nodup_iff.mpr hnd
    have habl := execLoop_abort execNode abortAt nodes edges hmono (k - 1) habort
      (topologicalSort nodes edges).sorted 0 [] hndids (Nat.zero_le _)
    rw [executeWorkflow_run execNode abortAt nodes edges hc]
    rcases hEL : execLoop execNode abortAt nodes edges
        (topologicalSort nodes edges).sorted 0 [] with ⟨us, r⟩
    rw [hEL] at habl
    obtain ⟨msg, hmsg⟩ := habl.1 (by omega)
    have hr : r = Except.error msg := by simpa using hmsg
    subst hr
    refine ⟨rfl, ?_⟩
    intro i hik hi hmem
    rcases List.mem_append.mp hmem with hmem | hmem
    · exact habl.2 i hi (by omega) (by simpa using hmem)
    · simp at hmem

/-- C5 witness: with the flag set from the start, a one-node run fails with
no `node_start` at all. -/
theorem claim_C5_witness :
    (executeWorkflow (V := Unit) (fun _ _ => Except.ok ()) (fun _ => true)
      [⟨"A", "t", {}, {}⟩] []).2.success = false ∧
    ∀ i, 1 - 1 ≤ i → ∀ (hi : i < (topologicalSort [⟨"A", "t", {}, {}⟩] []).sorted.length),
      ExecUpdate.node_start (((topologicalSort [⟨"A", "t", {}, {}⟩] []).sorted.get
        ⟨i, hi⟩).id) ∉
        (executeWorkflow (V := Unit) (fun _ _ => Except.ok ()) (fun _ => true)
          [⟨"A", "t", {}, {}⟩] []).1 :=
  claim_C5_abort (V := Unit) (fun _ _ => Except.ok ()) (fun _ => true)
    [⟨"A", "t", {}, {}⟩] [] (by decide) (fun _ _ _ h => h) 1 (by omega)
    (by decide) rfl

/-- C6: the validation score follows the spec formula, is non-increasing in
the error and warning counts, equals 100 exactly when the list has no
error- or warning-severity issue, and is unchanged by info-severity
issues. -/
theorem claim_C6_score :
    (∀ issues : List ValidationIssue,
      calculateValidationScore issues =
        (if (issues.filter (fun i => i.type == Severity.error)).length > 0 then
          max 0 (40 - ((issues.filter (fun i => i.type == Severity.error)).length : Int) * 10)
        else if (issues.filter (fun i => i.type == Severity.warning)).length > 0 then
          max 60 (90 - ((issues.filter (fun i => i.type == Severity.warning)).length : Int) * 10)
        else 100)) ∧
    (∀ issues₁ issues₂ : List ValidationIssue,
      (issues₁.filter (fun i => i.type == Severity.error)).length ≤
        (issues₂.filter (fun i => i.type == Severity.error)).length →
      (issues₁.filter (fun i => i.type == Severity.warning)).length ≤
        (issues₂.filter (fun i => i.type == Severity.warning)).length →
      calculateValidationScore issues₂ ≤ calculateValidationScore issues₁) ∧
    (∀ issues : List ValidationIssue,
      calculateValidationScore issues = 100 ↔
        ∀ i ∈ issues, i.type ≠ Severity.error ∧ i.type ≠ Severity.warning) ∧
    (∀ (issues : List ValidationIssue) (i : ValidationIssue), i.type = Severity.info →
      calculateValidationScore (issues ++ [i]) = calculateValidationScore issues) := by
  refine ⟨fun issues => rfl, ?_, ?_, ?_⟩
  · intro i1 i2 he hw
    unfold calculateValidationScore
    simp only [max_def]
    split_ifs <;> omega
  · intro issues
    have hbridge : calculateValidationScore issues = 100 ↔
        (issues.filter (fun i => i.type == Severity.error)).length = 0 ∧
        (issues.filter (fun i => i.type == Severity.warning)).length = 0 := by
      unfold calculateValidationScore
      simp only [max_def]
      split_ifs <;> constructor <;> intro h <;> omega
    rw [hbridge]
    constructor
    · rintro ⟨he, hw⟩ i hi
      have he' := List.filter_eq_nil_iff.mp (List.length_eq_zero.mp he) i hi
      have hw' := List.filter_eq_nil_iff.mp (List.length_eq_zero.mp hw) i hi
      constructor
      · intro hc
        exact he' (by simp [hc])
      · intro hc
        exact hw' (by simp [hc])
    · intro h
      constructor
      · rw [List.length_eq_zero, List.filter_eq_nil_iff]
        intro i hi
        simpa using (h i hi).1
      · rw [List.length_eq_zero, List.filter_eq_nil_iff]
        intro i hi
        simpa using (h i hi).2
  · intro issues i hi
    unfold calculateValidationScore
    have h1 : (issues ++ [i]).filter (fun j => j.type == Severity.error) =
        issues.filter (fun j => j.type == Severity.error) := by
      rw [List.filter_append]
      simp [List.filter_cons, hi]
    have h2 : (issues ++ [i]).filter (fun j => j.type == Severity.warning) =
        issues.filter (fun j => j.type == Severity.warning) := by
      rw [List.filter_append]
      simp [List.filter_cons, hi]
    rw [h1, h2]

/-- C6 witness: concrete instances of each conjunct. -/
theorem claim_C6_witness :
    calculateValidationScore
        [{ type := Severity.error, message := "m" }, { type := Severity.info, message := "n" }] ≤
      calculateValidationScore [{ type := Severity.info, message := "n" }] ∧
    (calculateValidationScore [{ type := Severity.info, message := "n" }] = 100) := by
  constructor
  · exact claim_C6_score.2.1 [{ type := Severity.info, message := "n" }]
      [{ type := Severity.error, message := "m" }, { type := Severity.info, message := "n" }]
      (by decide) (by decide)
  · exact (claim_C6_score.2.2.1 [{ type := Severity.info, message := "n" }]).mpr (by decide)

/-- C7: `isUrlSafe` is false exactly for unparsable URLs, blocklisted
(lower-cased, equal-or-prefix) hostnames, or non-HTTP(S) schemes; hosts in
`172.17.x`–`172.31.x` pass; the scenario URL `http://127.0.0.1/admin` is
rejected and `validateWorkflow` emits the corresponding `url`-field error. -/
theorem claim_C7_isUrlSafe :
    (∀ (parse : String → Option URLParts) (url : String),
      isUrlSafeWith parse url = false ↔
        (parse url = none ∨
         ∃ p, parse url = some p ∧
           ((∃ blocked ∈ BLOCKED_HOSTS, strToLower p.hostname = blocked ∨
              strStartsWith (strToLower p.hostname) blocked = true) ∨
            p.protocol ∉ ["http:", "https:"]))) ∧
    isUrlSafe "http://127.0.0.1/admin" = false ∧
    isUrlSafe "http://172.17.0.1/" = true ∧
    isUrlSafe "http://172.31.255.255/" = true ∧
    (∃ issues, validateWorkflow
        [⟨"H", "httpRequest", {}, { url := some "http://127.0.0.1/admin" }⟩] [] =
          some issues ∧
      ∃ issue ∈ issues, issue.type = Severity.error ∧ issue.nodeId = some "H" ∧
        issue.field = some "url") := by
  refine ⟨?_, by decide, by decide, by decide, ?_⟩
  · intro parse url
    cases hp : parse url with
    | none =>
      rw [isUrlSafeWith_none parse url hp]
      simp
    | some p =>
      rw [isUrlSafeWith_some parse url p hp]
      constructor
      · intro hfalse
        by_cases hb : (BLOCKED_HOSTS.any fun blocked =>
            strToLower p.hostname == blocked ||
              strStartsWith (strToLower p.hostname) blocked) = true
        · refine Or.inr ⟨p, rfl, Or.inl ?_⟩
          obtain ⟨blocked, hbm, hbc⟩ := List.any_eq_true.mp hb
          rcases Bool.or_eq_true_iff.mp hbc with hbc | hbc
          · exact ⟨blocked, hbm, Or.inl (by simpa using hbc)⟩
          · exact ⟨blocked, hbm, Or.inr hbc⟩
        · rw [if_neg hb] at hfalse
          by_cases hpr : (["http:", "https:"].contains p.protocol) = true
          · rw [if_neg (by rw [hpr]; decide)] at hfalse
            exact absurd hfalse (by decide)
          · exact Or.inr ⟨p, rfl, Or.inr (fun hmem => hpr (by simpa using hmem))⟩
      · rintro (hnone | ⟨q, hq, hcond⟩)
        · exact absurd hnone (by simp)
        · have hpq : p = q := by injection hq
          subst hpq
          rcases hcond with hcond | hcond
          · have hb : (BLOCKED_HOSTS.any fun blocked =>
                strToLower p.hostname == blocked ||
                  strStartsWith (strToLower p.hostname) blocked) = true := by
              obtain ⟨blocked, hbm, hbc⟩ := hcond
              refine List.any_eq_true.mpr ⟨blocked, hbm, ?_⟩
              rcases hbc with hbc | hbc
              · simp [hbc]
              · simp [hbc]
            rw [if_pos hb]
          · by_cases hb : (BLOCKED_HOSTS.any fun blocked =>
                strToLower p.hostname == blocked ||
                  strStartsWith (strToLower p.hostname) blocked) = true
            · rw [if_pos hb]
            · rw [if_neg hb]
              have hpr : (!(["http:", "https:"].contains p.protocol)) = true := by
                cases hc : ["http:", "https:"].contains p.protocol
                · rfl
                · exact absurd (by simpa using hc) hcond
              rw [if_pos hpr]
  · refine ⟨(validateWorkflow
      [⟨"H", "httpRequest", {}, { url := some "http://127.0.0.1/admin" }⟩] []).getD [],
      by decide, ?_⟩
    decide

/-- C7 witness: a private-range URL judged unsafe via the characterisation. -/
theorem claim_C7_witness : isUrlSafeWith simpleParseURL "http://10.0.0.1/x" = false := by
  apply (claim_C7_isUrlSafe.1 simpleParseURL "http://10.0.0.1/x").mpr
  refine Or.inr ⟨⟨"http:", "10.0.0.1"⟩, by decide, Or.inl ⟨"10.", by decide, Or.inr (by decide)⟩⟩

/-- C8: on a cyclic graph the unguarded `calculateChainLength` recursion
exhausts every fuel bound, so `validateWorkflow` never returns — the code
contradicts the contract that validation always returns an issue list. -/
theorem claim_C8_validate_diverges :
    (∀ fuel, validateWorkflowF fuel
      [⟨"A", "t", {}, {}⟩, ⟨"B", "t", {}, {}⟩]
      [⟨"e1", "A", "B"⟩, ⟨"e2", "B", "A"⟩] = none) ∧
    (∀ fuel, chainF [⟨"e1", "A", "B"⟩, ⟨"e2", "B", "A"⟩] fuel "A" [] = none) ∧
    validateWorkflow [⟨"A", "t", {}, {}⟩, ⟨"B", "t", {}, {}⟩]
      [⟨"e1", "A", "B"⟩, ⟨"e2", "B", "A"⟩] = none := by
  have hchain : ∀ fuel,
      chainF [⟨"e1", "A", "B"⟩, ⟨"e2", "B", "A"⟩] fuel "A" [] = none ∧
      chainF [⟨"e1", "A", "B"⟩, ⟨"e2", "B", "A"⟩] fuel "B" [] = none := by
    intro fuel
    induction fuel with
    | zero => exact ⟨rfl, rfl⟩
    | succ fuel ih =>
      constructor
      · rw [chainF]
        simp [ih.2]
      · rw [chainF]
        simp [ih.1]
  have hchains : ∀ fuel, chainLengthsF fuel
      [⟨"A", "t", {}, {}⟩, ⟨"B", "t", {}, {}⟩]
      [⟨"e1", "A", "B"⟩, ⟨"e2", "B", "A"⟩] = none := by
    intro fuel
    unfold chainLengthsF
    simp [(hchain fuel).1]
  have hval : ∀ fuel, validateWorkflowF fuel
      [⟨"A", "t", {}, {}⟩, ⟨"B", "t", {}, {}⟩]
      [⟨"e1", "A", "B"⟩, ⟨"e2", "B", "A"⟩] = none := by
    intro fuel
    unfold validateWorkflowF
    cases hdet : detectCyclesF fuel
        [⟨"A", "t", {}, {}⟩, ⟨"B", "t", {}, {}⟩]
        [⟨"e1", "A", "B"⟩, ⟨"e2", "B", "A"⟩] with
    | none => rfl
    | some cycles =>
      simp [hchains fuel]
  exact ⟨hval, fun fuel => (hchain fuel).1, hval _⟩

/-- C10 witness: on the cyclic two-node graph the output is still a
permutation of the node list. -/
theorem claim_C10_witness :
    (topologicalSort [⟨"A", "t", {}, {}⟩, ⟨"B", "t", {}, {}⟩]
      [⟨"e1", "A", "B"⟩, ⟨"e2", "B", "A"⟩]).sorted.Perm
      [⟨"A", "t", {}, {}⟩, ⟨"B", "t", {}, {}⟩] :=
  claim_C10_sorted_perm [⟨"A", "t", {}, {}⟩, ⟨"B", "t", {}, {}⟩]
    [⟨"e1", "A", "B"⟩, ⟨"e2", "B", "A"⟩] (by decide)

/-- C9 counterexample: as stated the claim is false. With the single node `A`
and the edges `A→X`, `X→A` through the dangling id `X`, both edges have an
unresolved endpoint, yet removing them flips `hasCycle` from `true` to
`false` (a dangling id contributes an adjacency entry, so the traversal walks
through it); and a dangling-source edge contributes an (undefined-valued)
input slot to `getNodeInputs`, so removing it changes the result. -/
theorem claim_C9_counterexample :
    removeUnresolvedEdges [⟨"A", "t", {}, {}⟩]
      [⟨"e1", "A", "X"⟩, ⟨"e2", "X", "A"⟩] = [] ∧
    (topologicalSort [⟨"A", "t", {}, {}⟩]
      [⟨"e1", "A", "X"⟩, ⟨"e2", "X", "A"⟩]).hasCycle = true ∧
    (topologicalSort [⟨"A", "t", {}, {}⟩]
      (removeUnresolvedEdges [⟨"A", "t", {}, {}⟩]
        [⟨"e1", "A", "X"⟩, ⟨"e2", "X", "A"⟩])).hasCycle = false ∧
    getNodeInputs (V := Unit) "A" [⟨"e2", "X", "A"⟩] []
      (some [⟨"A", "t", {}, {}⟩]) = [("input1", none)] ∧
    getNodeInputs (V := Unit) "A"
      (removeUnresolvedEdges [⟨"A", "t", {}, {}⟩] [⟨"e2", "X", "A"⟩]) []
      (some [⟨"A", "t", {}, {}⟩]) = [] := by
  refine ⟨by decide, by decide, by decide, by decide, by decide⟩

/-- C9 (amended): if every edge's source resolves to a node id, then removing
every edge with an unresolved endpoint leaves `topologicalSort`'s entire
result and every node's `getNodeInputs` unchanged. -/
theorem claim_C9_unresolved_edges_noop (nodes : List Node) (edges : List Edge)
    (hsrc : ∀ e ∈ edges, nodeIdMem nodes e.source = true) :
    topologicalSort nodes (removeUnresolvedEdges nodes edges) =
      topologicalSort nodes edges ∧
    ∀ (V : Type) (results : List (String × V)) (nodesOpt : Option (List Node)),
      ∀ n ∈ nodes,
        getNodeInputs n.id (removeUnresolvedEdges nodes edges) results nodesOpt =
          getNodeInputs n.id edges results nodesOpt :=
  ⟨topologicalSort_clean nodes edges hsrc,
    fun V results nodesOpt n hn =>
      getNodeInputs_clean nodes edges hsrc n hn results nodesOpt⟩

/-- C9 witness: a concrete graph whose sources all resolve but whose second
edge has a dangling target. -/
theorem claim_C9_witness :
    topologicalSort [⟨"A", "t", {}, {}⟩, ⟨"B", "t", {}, {}⟩]
      (removeUnresolvedEdges [⟨"A", "t", {}, {}⟩, ⟨"B", "t", {}, {}⟩]
        [⟨"e1", "A", "B"⟩, ⟨"e2", "B", "X"⟩]) =
    topologicalSort [⟨"A", "t", {}, {}⟩, ⟨"B", "t", {}, {}⟩]
      [⟨"e1", "A", "B"⟩, ⟨"e2", "B", "X"⟩] :=
  (claim_C9_unresolved_edges_noop [⟨"A", "t", {}, {}⟩, ⟨"B", "t", {}, {}⟩]
    [⟨"e1", "A", "B"⟩, ⟨"e2", "B", "X"⟩] (by decide)).1

end WorkflowCore
